import Mathlib

/-! pg_flame: plan tree to flame tree

A shallow embedding of `pkg/html/html.go`: the functions `name`, `detail`,
`convertPlanNode` and `buildFlame`, together with the `Flame` record they build.

Go's `float64` is embedded as an arbitrary type `α` that carries an addition;
no law of that addition is assumed by the definitions, so they read the same for
IEEE doubles (whose addition is not associative) and for exact numbers.
Go's `string` is embedded as `String`, and `[]T` as `List T` (the nil slice is `[]`).
-/

namespace PgFlame

/-! ## Data model -/

/-- Modelled from the spec: the scalar fields of `plan.Node`, whose declaration lives in
the package `pg_flame/pkg/plan`. Only the fields read by `html.go` are kept. The five
counters are integers; every field defaults to Go's zero value. -/
structure NodeAttrs (α : Type) where
  Method : String := ""
  Table : String := ""
  Index : String := ""
  ParentRelationship : String := ""
  TotalTime : α
  Filter : String := ""
  JoinFilter : String := ""
  HashCond : String := ""
  IndexCond : String := ""
  RecheckCond : String := ""
  BuffersHit : Int := 0
  BuffersRead : Int := 0
  HashBuckets : Int := 0
  HashBatches : Int := 0
  MemoryUsage : Int := 0

/-- Modelled from the spec: `plan.Node`, a record of scalar attributes together with the
ordered slice `Children []Node`. -/
inductive Node (α : Type) where
  | mk (attrs : NodeAttrs α) (Children : List (Node α)) : Node α

namespace Node

variable {α : Type}

def attrs : Node α → NodeAttrs α
  | mk a _ => a

def Children : Node α → List (Node α)
  | mk _ cs => cs

def Method (n : Node α) : String := n.attrs.Method
def Table (n : Node α) : String := n.attrs.Table
def Index (n : Node α) : String := n.attrs.Index
def ParentRelationship (n : Node α) : String := n.attrs.ParentRelationship
def TotalTime (n : Node α) : α := n.attrs.TotalTime
def Filter (n : Node α) : String := n.attrs.Filter
def JoinFilter (n : Node α) : String := n.attrs.JoinFilter
def HashCond (n : Node α) : String := n.attrs.HashCond
def IndexCond (n : Node α) : String := n.attrs.IndexCond
def RecheckCond (n : Node α) : String := n.attrs.RecheckCond
def BuffersHit (n : Node α) : Int := n.attrs.BuffersHit
def BuffersRead (n : Node α) : Int := n.attrs.BuffersRead
def HashBuckets (n : Node α) : Int := n.attrs.HashBuckets
def HashBatches (n : Node α) : Int := n.attrs.HashBatches
def MemoryUsage (n : Node α) : Int := n.attrs.MemoryUsage

end Node

/-- Modelled from the spec: `plan.Plan`, the planning time reported next to the
execution tree. -/
structure Plan (α : Type) where
  PlanningTime : α
  ExecutionTree : Node α

/-- The Go struct `Flame` (html.go, lines 13-21). -/
inductive Flame (α : Type) where
  | mk (Name : String) (Value : α) (Time : α) (Detail : String) (Color : String)
      (InitPlan : Bool) (Children : List (Flame α)) : Flame α

namespace Flame

variable {α : Type}

def Name : Flame α → String
  | mk x _ _ _ _ _ _ => x

def Value : Flame α → α
  | mk _ x _ _ _ _ _ => x

def Time : Flame α → α
  | mk _ _ x _ _ _ _ => x

def Detail : Flame α → String
  | mk _ _ _ x _ _ _ => x

def Color : Flame α → String
  | mk _ _ _ _ x _ _ => x

def InitPlan : Flame α → Bool
  | mk _ _ _ _ _ x _ => x

def Children : Flame α → List (Flame α)
  | mk _ _ _ _ _ _ x => x

end Flame

/-! ## Constants and templates -/

def tableHeader : String := "<table class=\"table table-striped table-bordered\"><tbody>"

/-- The format string `rowTemplate = "<tr><th>%s</th><td>%v</td></tr>"` applied to a label
and an already rendered value. -/
def rowTemplate (label value : String) : String :=
  "<tr><th>" ++ label ++ "</th><td>" ++ value ++ "</td></tr>"

def tableFooter : String := "</tbody></table>"

/-- The format string `detailTemplate = "<span>%s</span>"` applied to its argument. -/
def detailTemplate (s : String) : String := "<span>" ++ s ++ "</span>"

def colorPlan : String := "#00C05A"

def colorInit : String := "#C0C0C0"

/-- The verb `%v` on an integer: its decimal rendering, with a leading `-` when negative. -/
def fmtInt (i : Int) : String := toString i

/-! ## The functions of `html.go` -/

variable {α : Type}

/-- The Go function `name` (html.go, lines 112-121). -/
def name (n : Node α) : String :=
  if n.Table ≠ "" ∧ n.Index ≠ "" then
    n.Method ++ " using " ++ n.Index ++ " on " ++ n.Table
  else if n.Table ≠ "" then
    n.Method ++ " on " ++ n.Table
  else
    n.Method

/-- The Go function `detail` (html.go, lines 123-174): the string builder is threaded
through the eleven presence checks in source order. -/
def detail (n : Node α) : String :=
  let b := tableHeader
  let b := if n.ParentRelationship ≠ "" then
    b ++ rowTemplate "Parent Relationship" n.ParentRelationship else b
  let b := if n.Filter ≠ "" then b ++ rowTemplate "Filter" n.Filter else b
  let b := if n.JoinFilter ≠ "" then b ++ rowTemplate "Join Filter" n.JoinFilter else b
  let b := if n.HashCond ≠ "" then b ++ rowTemplate "Hash Cond" n.HashCond else b
  let b := if n.IndexCond ≠ "" then b ++ rowTemplate "Index Cond" n.IndexCond else b
  let b := if n.RecheckCond ≠ "" then b ++ rowTemplate "Recheck Cond" n.RecheckCond else b
  let b := if n.BuffersHit ≠ 0 then
    b ++ rowTemplate "Buffers Shared Hit" (fmtInt n.BuffersHit) else b
  let b := if n.BuffersRead ≠ 0 then
    b ++ rowTemplate "Buffers Shared Read" (fmtInt n.BuffersRead) else b
  let b := if n.HashBuckets ≠ 0 then
    b ++ rowTemplate "Hash Buckets" (fmtInt n.HashBuckets) else b
  let b := if n.HashBatches ≠ 0 then
    b ++ rowTemplate "Hash Batches" (fmtInt n.HashBatches) else b
  let b := if n.MemoryUsage ≠ 0 then
    b ++ rowTemplate "Memory Usage" (fmtInt n.MemoryUsage ++ "kB") else b
  b ++ tableFooter

mutual
/-- The Go function `convertPlanNode` (html.go, lines 79-110). -/
def convertPlanNode [Add α] : Node α → String → Flame α
  | Node.mk a cs, color =>
    let initPlan := decide (a.ParentRelationship = "InitPlan")
    let color := if initPlan then colorInit else color
    let r := convertChildren cs color a.TotalTime []
    Flame.mk (name (Node.mk a cs)) r.1 a.TotalTime (detail (Node.mk a cs)) color initPlan r.2
/-- The `for` loop of `convertPlanNode` (lines 88-99) over the children still to visit,
with its two loop variables `value` and `childFlames`. -/
def convertChildren [Add α] : List (Node α) → String → α → List (Flame α) → α × List (Flame α)
  | [], _, value, childFlames => (value, childFlames)
  | childNode :: rest, color, value, childFlames =>
    let f := convertPlanNode childNode color
    let value := if f.InitPlan then value + f.Value else value
    convertChildren rest color value (childFlames ++ [f])
end

/-- The Go function `buildFlame` (html.go, lines 59-77). -/
def buildFlame [Add α] (p : Plan α) : Flame α :=
  let planningFlame : Flame α :=
    Flame.mk "Query Planning" p.PlanningTime p.PlanningTime
      (detailTemplate "Time to generate the query plan") colorPlan false []
  let executionFlame := convertPlanNode p.ExecutionTree ""
  Flame.mk "Total" (planningFlame.Value + executionFlame.Value)
    (planningFlame.Time + executionFlame.Time)
    (detailTemplate "Includes planning and execution time") "" false
    [planningFlame, executionFlame]

/-! ## Traversals used to state the properties -/

mutual
/-- Every node of a flame tree, the root first, then the subtrees in child order. -/
def Flame.nodes : Flame α → List (Flame α)
  | Flame.mk nm v t d c i cs => Flame.mk nm v t d c i cs :: Flame.nodesList cs
/-- The nodes of a forest, tree after tree. -/
def Flame.nodesList : List (Flame α) → List (Flame α)
  | [] => []
  | f :: fs => Flame.nodes f ++ Flame.nodesList fs
end

mutual
/-- Every node of a plan tree, the root first, then the subtrees in child order. -/
def Node.nodes : Node α → List (Node α)
  | Node.mk a cs => Node.mk a cs :: Node.nodesList cs
/-- The nodes of a plan forest, tree after tree. -/
def Node.nodesList : List (Node α) → List (Node α)
  | [] => []
  | n :: ns => Node.nodes n ++ Node.nodesList ns
end

mutual
/-- Every downward path of a flame tree that starts at the root: a path lists a node
preceded by all its ancestors, the root first. -/
def Flame.paths : Flame α → List (List (Flame α))
  | Flame.mk nm v t d c i cs =>
    [Flame.mk nm v t d c i cs] ::
      (Flame.pathsList cs).map (fun p => Flame.mk nm v t d c i cs :: p)
/-- The root paths of the trees of a forest. -/
def Flame.pathsList : List (Flame α) → List (List (Flame α))
  | [] => []
  | f :: fs => Flame.paths f ++ Flame.pathsList fs
end

/-- The color a node converted under the inherited color `c` ends up with, which is also
the color it hands to its children (html.go, lines 83-85). -/
def resolvedColor (n : Node α) (c : String) : String :=
  if n.ParentRelationship = "InitPlan" then colorInit else c

/-- The `time` to which the `Value`s of the init-plan nodes among `children` have been
added one after the other, in child order. -/
def initPlanSum [Add α] (time : α) (children : List (Flame α)) : α :=
  ((children.filter Flame.InitPlan).map Flame.Value).foldl (· + ·) time

/-- A leaf that is an init-plan node: an index scan taking 2 time units. -/
def sampleLeaf : Node Int :=
  Node.mk { Method := "Index Scan", Table := "t", Index := "idx", TotalTime := 2,
            ParentRelationship := "InitPlan" } []

/-- An init-plan subtree of two nodes, with times 1 and 2. -/
def sampleInitNode : Node Int :=
  Node.mk { Method := "Result", TotalTime := 1, ParentRelationship := "InitPlan" } [sampleLeaf]

/-- A scan that is an ordinary child, taking 4 time units. -/
def sampleScan : Node Int :=
  Node.mk { Method := "Seq Scan", Table := "t", TotalTime := 4,
            ParentRelationship := "Outer" } []

/-- A plan tree used to evaluate the functions: a sort taking 10 time units over
`sampleScan` and `sampleInitNode`. -/
def samplePlanNode : Node Int :=
  Node.mk { Method := "Sort", TotalTime := 10 } [sampleScan, sampleInitNode]

/-- A plan around `samplePlanNode`, planned in 5 time units. -/
def samplePlan : Plan Int := { PlanningTime := 5, ExecutionTree := samplePlanNode }

/-- The plan of the root aggregation example: planning takes 2.5, the execution root takes
10.0 and has a single child, an init-plan leaf taking 1.5. -/
def aggregationPlan : Plan ℚ :=
  { PlanningTime := 2.5,
    ExecutionTree :=
      Node.mk { TotalTime := 10.0 }
        [Node.mk { TotalTime := 1.5, ParentRelationship := "InitPlan" } []] }

/-- One candidate row of the detail table: whether its attribute is present on a node, the
label of the row, and the rendering of the attribute's value. -/
structure DetailRow (α : Type) where
  present : Node α → Bool
  label : String
  render : Node α → String

/-- The eleven candidate rows in their canonical order, written after the specification: a
string attribute is present when it is non-empty and a number when it is non-zero; every
value is rendered as it is, memory usage being followed by the unit marker `kB`. -/
def canonicalRows : List (DetailRow α) :=
  [ ⟨fun n => decide (n.ParentRelationship ≠ ""), "Parent Relationship",
      fun n => n.ParentRelationship⟩,
    ⟨fun n => decide (n.Filter ≠ ""), "Filter", fun n => n.Filter⟩,
    ⟨fun n => decide (n.JoinFilter ≠ ""), "Join Filter", fun n => n.JoinFilter⟩,
    ⟨fun n => decide (n.HashCond ≠ ""), "Hash Cond", fun n => n.HashCond⟩,
    ⟨fun n => decide (n.IndexCond ≠ ""), "Index Cond", fun n => n.IndexCond⟩,
    ⟨fun n => decide (n.RecheckCond ≠ ""), "Recheck Cond", fun n => n.RecheckCond⟩,
    ⟨fun n => decide (n.BuffersHit ≠ 0), "Buffers Shared Hit", fun n => fmtInt n.BuffersHit⟩,
    ⟨fun n => decide (n.BuffersRead ≠ 0), "Buffers Shared Read",
      fun n => fmtInt n.BuffersRead⟩,
    ⟨fun n => decide (n.HashBuckets ≠ 0), "Hash Buckets", fun n => fmtInt n.HashBuckets⟩,
    ⟨fun n => decide (n.HashBatches ≠ 0), "Hash Batches", fun n => fmtInt n.HashBatches⟩,
    ⟨fun n => decide (n.MemoryUsage ≠ 0), "Memory Usage",
      fun n => fmtInt n.MemoryUsage ++ "kB"⟩ ]

/-- The candidate rows of `rows` that are kept for the node `n`, in the order of `rows`. -/
def emittedRows (rows : List (DetailRow α)) (n : Node α) : List (DetailRow α) :=
  rows.filter (fun r => r.present n)

/-- The table made of the rows of `rows` kept for `n`: the header, the rows one after the
other, the footer. -/
def renderRows (rows : List (DetailRow α)) (n : Node α) : String :=
  tableHeader ++ String.join ((emittedRows rows n).map (fun r => rowTemplate r.label (r.render n)))
    ++ tableFooter

/-- The detail block as the specification words it: the declarative list of candidate rows
applied in order. -/
def detailSpec (n : Node α) : String := renderRows canonicalRows n

/-- A node whose only descriptive attribute is a filter. -/
def sampleFilterNode : Node Int :=
  Node.mk { Method := "Seq Scan", Table := "t", TotalTime := 4, Filter := "(a < 3)" } []

/-- A node with a hash condition, 12 buffer hits and 25 kB of memory. -/
def sampleHashNode : Node Int :=
  Node.mk { Method := "Hash Join", TotalTime := 7, HashCond := "(a = b)", BuffersHit := 12,
            MemoryUsage := 25 } []

/-- The canonical candidate rows without the one labeled `lbl`. -/
def rowsWithout (lbl : String) : List (DetailRow α) :=
  canonicalRows.filter (fun r => decide (r.label ≠ lbl))

/-- A node without any descriptive attribute. -/
def sampleBareNode : Node Int := Node.mk { Method := "Sort", TotalTime := 3 } []

/-- A JSON value as written by `encoding/json`; a number is kept as the value it encodes. -/
inductive JSON (α : Type) where
  | null : JSON α
  | bool (b : Bool) : JSON α
  | num (x : α) : JSON α
  | str (s : String) : JSON α
  | arr (items : List (JSON α)) : JSON α
  | obj (members : List (String × JSON α)) : JSON α

/-- The keys of a JSON object, in the order they are written. -/
def JSON.keys : JSON α → List String
  | JSON.obj members => members.map Prod.fst
  | _ => []

/-- The member of a JSON object found under the key `k`. -/
def JSON.member (k : String) : JSON α → Option (JSON α)
  | JSON.obj members => members.lookup k
  | _ => none

/-- The encoding of a slice whose elements are encoded as `js`: the array of these, or, for
a slice without element, `null` when the slice is nil and `[]` otherwise. -/
def JSON.slice (nilSlices : Bool) (js : List (JSON α)) : JSON α :=
  if js.isEmpty then (if nilSlices then JSON.null else JSON.arr []) else JSON.arr js

mutual
/-- The call `json.Marshal` of `Generate` (html.go, lines 40-43) on a `Flame`. When every
`Value` and `Time` of the tree is a finite number the result is an object with one member
per field of the struct, in declaration order, under the key given by the field's `json`
tag (lines 14-20); when one of them is a NaN or an infinity, `json.Marshal` returns an error
and no JSON, which is `none`. `finite` tells which numbers are neither NaN nor infinite.
A `Children` slice without element is written `null` when it is the nil slice and `[]`
otherwise; `nilSlices` tells which of the two holds for the slices without element. -/
def Flame.marshal (finite : α → Bool) (nilSlices : Bool) : Flame α → Option (JSON α)
  | Flame.mk nm v t d c i cs =>
    if finite v && finite t then
      (Flame.marshalList finite nilSlices cs).map
        (fun js =>
          JSON.obj
            [ ("name", JSON.str nm), ("value", JSON.num v), ("time", JSON.num t),
              ("detail", JSON.str d), ("color", JSON.str c), ("init_plan", JSON.bool i),
              ("children", JSON.slice nilSlices js) ])
    else none
/-- The elements of a marshalled slice of `Flame`s, or `none` when one of them cannot be
marshalled. -/
def Flame.marshalList (finite : α → Bool) (nilSlices : Bool) :
    List (Flame α) → Option (List (JSON α))
  | [] => some []
  | f :: fs =>
    match Flame.marshal finite nilSlices f, Flame.marshalList finite nilSlices fs with
    | some j, some js => some (j :: js)
    | _, _ => none
end

/-- The value `flameJSON` of `Generate` (html.go, lines 33 and 40-43): the tree built by
`buildFlame`, marshalled, or `none` when `Generate` returns the error of `json.Marshal`.
In a tree built by `buildFlame` every `Children` slice without element is the nil slice:
`convertPlanNode` declares it nil (line 87) and only appends to it (line 98), and the
planning leaf leaves the field unset (lines 60-66). -/
def flameJSON [Add α] (finite : α → Bool) (p : Plan α) : Option (JSON α) :=
  (buildFlame p).marshal finite true

mutual
/-- The number of nested calls of `convertPlanNode` on a plan tree: one for the node itself
on top of the deepest chain of calls on its children. -/
def Node.depth : Node α → Nat
  | Node.mk _ cs => Node.depthList cs + 1
/-- The deepest chain of calls among the trees of a plan forest. -/
def Node.depthList : List (Node α) → Nat
  | [] => 0
  | n :: ns => max (Node.depth n) (Node.depthList ns)
end

/-- The Go function `convertPlanNode` (html.go, lines 79-110) as a general recursion in
which every call spends one unit of `fuel`; the result is `none` when the fuel runs out
before the recursion has ended. -/
def convertPlanNodeFuel [Add α] : Nat → Node α → String → Option (Flame α)
  | 0, _, _ => none
  | fuel + 1, n, color =>
    let initPlan := decide (n.ParentRelationship = "InitPlan")
    let color := if initPlan then colorInit else color
    let loop := n.Children.foldlM
      (fun (st : α × List (Flame α)) childNode =>
        (convertPlanNodeFuel fuel childNode color).map
          (fun f => (if f.InitPlan then st.1 + f.Value else st.1, st.2 ++ [f])))
      (n.TotalTime, [])
    loop.map (fun st => Flame.mk (name n) st.1 n.TotalTime (detail n) color initPlan st.2)

mutual
/-- Every downward path of a plan tree that starts at the root: a path lists a node
preceded by all its ancestors, the root first. -/
def Node.paths : Node α → List (List (Node α))
  | Node.mk a cs => [Node.mk a cs] :: (Node.pathsList cs).map (fun p => Node.mk a cs :: p)
/-- The root paths of the trees of a plan forest. Applied to the children of a node `n`, it
lists, for every proper descendant `d` of `n`, the path from `n` (left out) to `d`. -/
def Node.pathsList : List (Node α) → List (List (Node α))
  | [] => []
  | n :: ns => Node.paths n ++ Node.pathsList ns
end

/-- Whether every node of the path `p` is an init-plan node. -/
def initPlanChain (p : List (Node α)) : Bool :=
  p.all (fun m => decide (m.ParentRelationship = "InitPlan"))

/-- The last nodes of those paths of `ps` that are made of init-plan nodes only. -/
def chainEnds (ps : List (List (Node α))) : List (Node α) :=
  (ps.filter initPlanChain).filterMap List.getLast?

/-- The proper descendants `d` of `n` such that every node on the path from `n` (left out)
to `d` (included) is an init-plan node, in the order of the traversal. -/
def Node.initPlanDescendants (n : Node α) : List (Node α) :=
  chainEnds (Node.pathsList n.Children)

/-- A plan tree in which an init-plan node hangs below an ordinary child: the scan of
`sampleScan` with `sampleLeaf` as its child, next to `sampleInitNode`, under a sort taking
10 time units. -/
def sampleHiddenNode : Node Int :=
  Node.mk { Method := "Sort", TotalTime := 10 }
    [ Node.mk { Method := "Seq Scan", Table := "t", TotalTime := 4,
                ParentRelationship := "Outer" } [sampleLeaf],
      sampleInitNode ]

mutual
/-- The flame tree with every `Color` replaced by the empty string: what is left is the
shape of the tree with `Name`, `Value`, `Time`, `Detail` and `InitPlan` at every node. -/
def Flame.withoutColor : Flame α → Flame α
  | Flame.mk nm v t d _ i cs => Flame.mk nm v t d "" i (Flame.withoutColorList cs)
/-- The trees of a forest with their colors removed. -/
def Flame.withoutColorList : List (Flame α) → List (Flame α)
  | [] => []
  | f :: fs => Flame.withoutColor f :: Flame.withoutColorList fs
end

/-- The conversion of the nodes of a downward path of the plan tree, the first one under the
color `c` and each next one under the color resolved at its parent, as `convertPlanNode`
does along its recursive calls. -/
def convertPath [Add α] : String → List (Node α) → List (Flame α)
  | _, [] => []
  | c, m :: rest => convertPlanNode m c :: convertPath (resolvedColor m c) rest

/-! ## Induction over plan trees and flame trees -/

mutual
theorem Node.plan_induct {P : Node α → Prop}
    (h : ∀ a cs, (∀ ch ∈ cs, P ch) → P (Node.mk a cs)) : ∀ n, P n
  | Node.mk a cs => h a cs (Node.plan_induct_list h cs)
theorem Node.plan_induct_list {P : Node α → Prop}
    (h : ∀ a cs, (∀ ch ∈ cs, P ch) → P (Node.mk a cs)) : ∀ cs : List (Node α), ∀ ch ∈ cs, P ch
  | [] => fun _ hch => absurd hch (List.not_mem_nil _)
  | c :: cs => fun ch hch => by
    rcases List.mem_cons.1 hch with e | e
    · exact e ▸ Node.plan_induct h c
    · exact Node.plan_induct_list h cs ch e
end

mutual
theorem Flame.flame_induct {P : Flame α → Prop}
    (h : ∀ nm v t d c i cs, (∀ ch ∈ cs, P ch) → P (Flame.mk nm v t d c i cs)) : ∀ f, P f
  | Flame.mk nm v t d c i cs => h nm v t d c i cs (Flame.flame_induct_list h cs)
theorem Flame.flame_induct_list {P : Flame α → Prop}
    (h : ∀ nm v t d c i cs, (∀ ch ∈ cs, P ch) → P (Flame.mk nm v t d c i cs)) :
    ∀ cs : List (Flame α), ∀ ch ∈ cs, P ch
  | [] => fun _ hch => absurd hch (List.not_mem_nil _)
  | c :: cs => fun ch hch => by
    rcases List.mem_cons.1 hch with e | e
    · exact e ▸ Flame.flame_induct h c
    · exact Flame.flame_induct_list h cs ch e
end

/-! ## Unfolding the loop of `convertPlanNode` -/

/-- One iteration of the loop on the running `value`. -/
theorem convertChildren_eq [Add α] (cs : List (Node α)) (color : String) (value : α)
    (childFlames : List (Flame α)) :
    convertChildren cs color value childFlames =
      ((cs.map (fun ch => convertPlanNode ch color)).foldl
          (fun v f => if f.InitPlan = true then v + f.Value else v) value,
        childFlames ++ cs.map (fun ch => convertPlanNode ch color)) := by
  induction cs generalizing value childFlames with
  | nil => simp [convertChildren]
  | cons c cs ih => simp [convertChildren, ih]

theorem foldl_initPlan [Add α] (l : List (Flame α)) (v : α) :
    l.foldl (fun v f => if f.InitPlan = true then v + f.Value else v) v =
      ((l.filter Flame.InitPlan).map Flame.Value).foldl (· + ·) v := by
  induction l generalizing v with
  | nil => rfl
  | cons f l ih =>
    by_cases hf : f.InitPlan = true
    · simp [List.filter, hf, ih]
    · simp [List.filter, hf, ih]

/-- The result of `convertPlanNode`, field by field, with the loop unfolded. -/
theorem convertPlanNode_eq [Add α] (n : Node α) (c : String) :
    convertPlanNode n c =
      Flame.mk (name n)
        ((((n.Children.map (fun ch => convertPlanNode ch (resolvedColor n c))).filter
            Flame.InitPlan).map Flame.Value).foldl (· + ·) n.TotalTime)
        n.TotalTime (detail n) (resolvedColor n c)
        (decide (n.ParentRelationship = "InitPlan"))
        (n.Children.map (fun ch => convertPlanNode ch (resolvedColor n c))) := by
  cases n with
  | mk a cs =>
    by_cases hp : a.ParentRelationship = "InitPlan"
    · simp [convertPlanNode, convertChildren_eq, foldl_initPlan, resolvedColor,
        Node.ParentRelationship, Node.attrs, Node.Children, Node.TotalTime, hp]
    · simp [convertPlanNode, convertChildren_eq, foldl_initPlan, resolvedColor,
        Node.ParentRelationship, Node.attrs, Node.Children, Node.TotalTime, hp]

/-! ## Membership in the traversals -/

theorem Flame.nodes_eq (f : Flame α) : f.nodes = f :: Flame.nodesList f.Children := by
  cases f; simp [Flame.nodes, Flame.Children]

theorem Flame.self_mem_nodes (f : Flame α) : f ∈ f.nodes := by
  rw [Flame.nodes_eq]; exact List.mem_cons_self _ _

theorem Flame.mem_nodesList {f : Flame α} {fs : List (Flame α)} :
    f ∈ Flame.nodesList fs ↔ ∃ g ∈ fs, f ∈ g.nodes := by
  induction fs with
  | nil => simp [Flame.nodesList]
  | cons g gs ih => simp [Flame.nodesList, ih]

theorem Flame.mem_nodes {f t : Flame α} :
    f ∈ t.nodes ↔ f = t ∨ ∃ g ∈ t.Children, f ∈ g.nodes := by
  rw [Flame.nodes_eq, List.mem_cons, Flame.mem_nodesList]

theorem Flame.paths_eq (f : Flame α) :
    f.paths = [f] :: (Flame.pathsList f.Children).map (fun p => f :: p) := by
  cases f; simp [Flame.paths, Flame.Children]

theorem Flame.mem_pathsList {p : List (Flame α)} {fs : List (Flame α)} :
    p ∈ Flame.pathsList fs ↔ ∃ g ∈ fs, p ∈ g.paths := by
  induction fs with
  | nil => simp [Flame.pathsList]
  | cons g gs ih => simp [Flame.pathsList, ih]

theorem Flame.mem_paths {p : List (Flame α)} {t : Flame α} :
    p ∈ t.paths ↔ p = [t] ∨ ∃ g ∈ t.Children, ∃ q ∈ g.paths, p = t :: q := by
  rw [Flame.paths_eq, List.mem_cons, List.mem_map]
  constructor
  · rintro (h | ⟨q, hq, rfl⟩)
    · exact Or.inl h
    · obtain ⟨g, hg, hqg⟩ := Flame.mem_pathsList.1 hq
      exact Or.inr ⟨g, hg, q, hqg, rfl⟩
  · rintro (h | ⟨g, hg, q, hq, rfl⟩)
    · exact Or.inl h
    · exact Or.inr ⟨q, Flame.mem_pathsList.2 ⟨g, hg, hq⟩, rfl⟩

theorem Flame.paths_ne_nil {p : List (Flame α)} {t : Flame α} (h : p ∈ t.paths) : p ≠ [] := by
  rcases Flame.mem_paths.1 h with rfl | ⟨_, _, _, _, rfl⟩ <;> simp

/-- The root paths of a tree end at its nodes, one path per node and in the same order: a
path is a node together with its ancestors. -/
theorem Flame.paths_getLast (t : Flame α) :
    t.paths.map List.getLast? = t.nodes.map some := by
  induction t using Flame.flame_induct with
  | h nm v tm d c i cs ih =>
    rw [Flame.paths_eq, Flame.nodes_eq]
    simp only [List.map_cons, List.getLast?_singleton, Flame.Children, List.map_map]
    congr 1
    have hlast : ∀ q ∈ Flame.pathsList cs,
        (List.getLast? ∘ fun p => Flame.mk nm v tm d c i cs :: p) q = q.getLast? := by
      intro q hq
      obtain ⟨g, _, hg⟩ := Flame.mem_pathsList.1 hq
      have hne := Flame.paths_ne_nil hg
      cases q with
      | nil => exact absurd rfl hne
      | cons x xs => simp
    rw [List.map_congr_left hlast]
    clear hlast
    induction cs with
    | nil => rfl
    | cons g gs ihg =>
      simp only [Flame.pathsList, Flame.nodesList, List.map_append]
      rw [ih g (List.mem_cons_self _ _), ihg (fun ch hch => ih ch (List.mem_cons_of_mem _ hch))]

/-! ## Fields of a converted node -/

section Fields

variable [Add α] (n : Node α) (c : String)

theorem convertPlanNode_Value :
    (convertPlanNode n c).Value =
      ((((n.Children.map (fun ch => convertPlanNode ch (resolvedColor n c))).filter
          Flame.InitPlan).map Flame.Value).foldl (· + ·) n.TotalTime) := by
  rw [convertPlanNode_eq]; rfl

theorem convertPlanNode_Time : (convertPlanNode n c).Time = n.TotalTime := by
  rw [convertPlanNode_eq]; rfl

theorem convertPlanNode_Color : (convertPlanNode n c).Color = resolvedColor n c := by
  rw [convertPlanNode_eq]; rfl

theorem convertPlanNode_InitPlan :
    (convertPlanNode n c).InitPlan = decide (n.ParentRelationship = "InitPlan") := by
  rw [convertPlanNode_eq]; rfl

theorem convertPlanNode_Children :
    (convertPlanNode n c).Children =
      n.Children.map (fun ch => convertPlanNode ch (resolvedColor n c)) := by
  rw [convertPlanNode_eq]; rfl

theorem convertPlanNode_Name : (convertPlanNode n c).Name = name n := by
  rw [convertPlanNode_eq]; rfl

theorem convertPlanNode_Detail : (convertPlanNode n c).Detail = detail n := by
  rw [convertPlanNode_eq]; rfl

end Fields

/-- Every node of a converted tree is itself the conversion of some plan node of the input
under some color. -/
theorem mem_nodes_convertPlanNode [Add α] (n : Node α) :
    ∀ c, ∀ f ∈ (convertPlanNode n c).nodes, ∃ m ∈ n.nodes, ∃ c', f = convertPlanNode m c' := by
  induction n using Node.plan_induct with
  | h a cs ih =>
    intro c f hf
    rcases Flame.mem_nodes.1 hf with rfl | ⟨g, hg, hfg⟩
    · exact ⟨_, by simp [Node.nodes], c, rfl⟩
    · rw [convertPlanNode_Children] at hg
      obtain ⟨ch, hch, rfl⟩ := List.mem_map.1 hg
      replace hch : ch ∈ cs := hch
      obtain ⟨m, hm, c', rfl⟩ := ih ch hch _ f hfg
      refine ⟨m, ?_, c', rfl⟩
      simp only [Node.nodes, List.mem_cons]
      right
      clear hf hg hfg ih
      induction cs with
      | nil => simp at hch
      | cons d ds ihd =>
        simp only [Node.nodesList, List.mem_append]
        rcases List.mem_cons.1 hch with rfl | h
        · exact Or.inl hm
        · exact Or.inr (ihd h)

/-! ## Value aggregation -/

/-- With an associative addition and a right identity `zero`, accumulating from `t` is
adding to `t` the sum of the list taken in order. -/
theorem foldl_add_eq_add_foldr [Add α] (hassoc : ∀ x y z : α, x + y + z = x + (y + z))
    (zero : α) (hzero : ∀ x : α, x + zero = x) (l : List α) (t : α) :
    l.foldl (· + ·) t = t + l.foldr (· + ·) zero := by
  induction l generalizing t with
  | nil => simp [hzero]
  | cons x l ih => simp [ih, hassoc]

/-- C1. Every node `f` of `convertPlanNode n c` has `f.Value` equal to `f.Time` to which the
`Value`s of exactly the direct children with `InitPlan = true` have been added, in child
order; for an associative addition with a right identity this is `f.Time` plus the sum, in
child order, of those `Value`s. Children with `InitPlan = false` contribute nothing. -/
theorem convertPlanNode_value_invariant [Add α] (n : Node α) (c : String) :
    ∀ f ∈ (convertPlanNode n c).nodes,
      f.Value = initPlanSum f.Time f.Children ∧
      ((∀ x y z : α, x + y + z = x + (y + z)) → ∀ zero : α, (∀ x : α, x + zero = x) →
        f.Value =
          f.Time + ((f.Children.filter Flame.InitPlan).map Flame.Value).foldr (· + ·) zero) := by
  intro f hf
  obtain ⟨m, _, c', rfl⟩ := mem_nodes_convertPlanNode n c f hf
  have h : (convertPlanNode m c').Value =
      initPlanSum (convertPlanNode m c').Time (convertPlanNode m c').Children := by
    rw [convertPlanNode_Value, convertPlanNode_Children, convertPlanNode_Time, initPlanSum]
  refine ⟨h, fun hassoc zero hzero => ?_⟩
  rw [h, initPlanSum, foldl_add_eq_add_foldr hassoc zero hzero]

/-- C1 at the root of the converted `samplePlanNode`: its value is 10 + (1 + 2) = 13, the
ordinary child of value 4 being left out. -/
theorem convertPlanNode_value_invariant_witness :
    convertPlanNode samplePlanNode "" ∈ (convertPlanNode samplePlanNode "").nodes ∧
    (convertPlanNode samplePlanNode "").Value = 13 ∧
    (convertPlanNode samplePlanNode "").Value =
      initPlanSum (convertPlanNode samplePlanNode "").Time
        (convertPlanNode samplePlanNode "").Children ∧
    (convertPlanNode samplePlanNode "").Value =
      (convertPlanNode samplePlanNode "").Time +
        (((convertPlanNode samplePlanNode "").Children.filter Flame.InitPlan).map
          Flame.Value).foldr (· + ·) 0 :=
  ⟨Flame.self_mem_nodes _, by decide,
    (convertPlanNode_value_invariant samplePlanNode "" _ (Flame.self_mem_nodes _)).1,
    (convertPlanNode_value_invariant samplePlanNode "" _ (Flame.self_mem_nodes _)).2
      Int.add_assoc 0 Int.add_zero⟩

theorem buildFlame_nodes [Add α] (p : Plan α) :
    (buildFlame p).nodes =
      buildFlame p ::
        (Flame.mk "Query Planning" p.PlanningTime p.PlanningTime
            (detailTemplate "Time to generate the query plan") colorPlan false []
          :: (convertPlanNode p.ExecutionTree "").nodes) := by
  simp [buildFlame, Flame.nodes, Flame.nodesList]

/-- C2 (counterexample). In `buildFlame samplePlan` the root `Total` has value 5 + 13 = 18 and
time 5 + 10 = 15 although none of its two children is an init-plan node, so its value is not
its time plus the values of its init-plan children. -/
theorem buildFlame_total_breaks_value_rule :
    buildFlame samplePlan ∈ (buildFlame samplePlan).nodes ∧
    (buildFlame samplePlan).Name = "Total" ∧
    (buildFlame samplePlan).Value = 18 ∧
    (buildFlame samplePlan).Time = 15 ∧
    (buildFlame samplePlan).Children.filter Flame.InitPlan = [] ∧
    initPlanSum (buildFlame samplePlan).Time (buildFlame samplePlan).Children = 15 ∧
    ¬ (∀ f ∈ (buildFlame samplePlan).nodes, f.Value = initPlanSum f.Time f.Children) := by
  refine ⟨Flame.self_mem_nodes _, by decide, by decide, by decide, by rfl, by decide, ?_⟩
  intro h
  exact absurd (h _ (Flame.self_mem_nodes _)) (by decide)

/-- C2 (amended). Every node of `buildFlame p` other than the root `Total`, that is the
`Query Planning` leaf and every node of the converted execution tree, has `Value` equal to
`Time` to which the `Value`s of its init-plan children have been added in child order; the
root has `Value` and `Time` equal to the sums of its two children's `Value`s and `Time`s. -/
theorem buildFlame_value_invariant_below_total [Add α] (p : Plan α) :
    (∀ f ∈ (buildFlame p).nodes.tail, f.Value = initPlanSum f.Time f.Children) ∧
    (buildFlame p).Value = p.PlanningTime + (convertPlanNode p.ExecutionTree "").Value ∧
    (buildFlame p).Time = p.PlanningTime + (convertPlanNode p.ExecutionTree "").Time := by
  refine ⟨?_, rfl, rfl⟩
  intro f hf
  rw [buildFlame_nodes, List.tail_cons] at hf
  rcases List.mem_cons.1 hf with rfl | h
  · rfl
  · exact (convertPlanNode_value_invariant _ _ f h).1

/-- C2 (amended) at the execution root of `buildFlame samplePlan`. -/
theorem buildFlame_value_invariant_below_total_witness :
    convertPlanNode samplePlanNode "" ∈ (buildFlame samplePlan).nodes.tail ∧
    (convertPlanNode samplePlanNode "").Value =
      initPlanSum (convertPlanNode samplePlanNode "").Time
        (convertPlanNode samplePlanNode "").Children :=
  have hmem : convertPlanNode samplePlanNode "" ∈ (buildFlame samplePlan).nodes.tail := by
    rw [buildFlame_nodes, List.tail_cons]
    exact List.mem_cons_of_mem _ (Flame.self_mem_nodes _)
  ⟨hmem, (buildFlame_value_invariant_below_total samplePlan).1 _ hmem⟩

/-! ## Color propagation -/

theorem resolvedColor_colorInit (n : Node α) : resolvedColor n colorInit = colorInit := by
  unfold resolvedColor; split <;> rfl

theorem resolvedColor_of_initPlan (n : Node α) (c : String)
    (h : n.ParentRelationship = "InitPlan") : resolvedColor n c = colorInit := by
  simp [resolvedColor, h]

theorem resolvedColor_of_not_initPlan (n : Node α) (c : String)
    (h : n.ParentRelationship ≠ "InitPlan") : resolvedColor n c = c := by
  simp [resolvedColor, h]

/-- Converted under the init-plan color, a tree is painted with that color throughout. -/
theorem convertPlanNode_colorInit_nodes [Add α] (n : Node α) :
    ∀ g ∈ (convertPlanNode n colorInit).nodes, g.Color = colorInit := by
  induction n using Node.plan_induct with
  | h a cs ih =>
    intro g hg
    rcases Flame.mem_nodes.1 hg with rfl | ⟨k, hk, hgk⟩
    · rw [convertPlanNode_Color, resolvedColor_colorInit]
    · rw [convertPlanNode_Children, resolvedColor_colorInit] at hk
      obtain ⟨ch, hch, rfl⟩ := List.mem_map.1 hk
      exact ih ch hch g hgk

/-- C3. In `convertPlanNode n c`, every node `f` with `InitPlan = true` and every node `g` of
the subtree rooted at `f` (that is `f` itself and its descendants at any depth) has `Color`
equal to the init-plan color `"#C0C0C0"`, whatever `c` and whatever `g.InitPlan`. -/
theorem convertPlanNode_initPlan_subtree_color [Add α] (n : Node α) (c : String) :
    colorInit = "#C0C0C0" ∧
    ∀ f ∈ (convertPlanNode n c).nodes, f.InitPlan = true →
      ∀ g ∈ f.nodes, g.Color = "#C0C0C0" := by
  refine ⟨rfl, ?_⟩
  intro f hf hinit g hg
  obtain ⟨m, _, c', rfl⟩ := mem_nodes_convertPlanNode n c f hf
  rw [convertPlanNode_InitPlan, decide_eq_true_eq] at hinit
  have hcol : ∀ k ∈ (convertPlanNode m c').Children, ∀ g ∈ k.nodes, g.Color = colorInit := by
    intro k hk g hg
    rw [convertPlanNode_Children, resolvedColor_of_initPlan m c' hinit] at hk
    obtain ⟨ch, _, rfl⟩ := List.mem_map.1 hk
    exact convertPlanNode_colorInit_nodes ch g hg
  rcases Flame.mem_nodes.1 hg with rfl | ⟨k, hk, hgk⟩
  · rw [convertPlanNode_Color, resolvedColor_of_initPlan m c' hinit]; rfl
  · exact hcol k hk g hgk

/-- C3 at `sampleInitNode` converted under the color `"red"`: the root is an init-plan node
and its child, the converted `sampleLeaf`, is grey. -/
theorem convertPlanNode_initPlan_subtree_color_witness :
    convertPlanNode sampleInitNode "red" ∈ (convertPlanNode sampleInitNode "red").nodes ∧
    (convertPlanNode sampleInitNode "red").InitPlan = true ∧
    convertPlanNode sampleLeaf "#C0C0C0" ∈ (convertPlanNode sampleInitNode "red").nodes ∧
    (convertPlanNode sampleLeaf "#C0C0C0").Color = "#C0C0C0" :=
  have hmem : convertPlanNode sampleLeaf "#C0C0C0" ∈
      (convertPlanNode sampleInitNode "red").nodes :=
    Flame.mem_nodes.2 (Or.inr ⟨_, List.mem_singleton.2 rfl, Flame.self_mem_nodes _⟩)
  ⟨Flame.self_mem_nodes _, by decide, hmem,
    (convertPlanNode_initPlan_subtree_color sampleInitNode "red").2 _
      (Flame.self_mem_nodes _) (by decide) _ hmem⟩

/-- Along a root path of `convertPlanNode n c` without any init-plan node, every node keeps
the inherited color. -/
theorem convertPlanNode_plain_path_color [Add α] (n : Node α) :
    ∀ c, ∀ p ∈ (convertPlanNode n c).paths, (∀ g ∈ p, g.InitPlan = false) →
      ∀ g ∈ p, g.Color = c := by
  induction n using Node.plan_induct with
  | h a cs ih =>
    intro c p hp hplain
    have hroot : convertPlanNode (Node.mk a cs) c ∈ p := by
      rcases Flame.mem_paths.1 hp with rfl | ⟨k, _, q, _, rfl⟩
      · exact List.mem_singleton.2 rfl
      · exact List.mem_cons_self _ _
    have hnot : (Node.mk a cs).ParentRelationship ≠ "InitPlan" := by
      have := hplain _ hroot
      rw [convertPlanNode_InitPlan, decide_eq_false_iff_not] at this
      exact this
    have hres := resolvedColor_of_not_initPlan (Node.mk a cs) c hnot
    have hself : (convertPlanNode (Node.mk a cs) c).Color = c := by
      rw [convertPlanNode_Color, hres]
    rcases Flame.mem_paths.1 hp with rfl | ⟨k, hk, q, hq, rfl⟩
    · intro g hg
      rw [List.mem_singleton.1 hg]; exact hself
    · rw [convertPlanNode_Children, hres] at hk
      obtain ⟨ch, hch, rfl⟩ := List.mem_map.1 hk
      intro g hg
      rcases List.mem_cons.1 hg with rfl | hgq
      · exact hself
      · exact ih ch hch c q hq (fun g hg => hplain g (List.mem_cons_of_mem _ hg)) g hgq

/-- C4. Let `p` be a root path of `convertPlanNode n c`, that is a node preceded by all its
ancestors in that tree. If no node of `p` is an init-plan node, then every node of `p`, in
particular its last one, has `Color = c`. In `buildFlame pl` the same holds with the empty
color for the root paths of the execution subtree, the second child of the root. -/
theorem convertPlanNode_color_unchanged [Add α] (n : Node α) (c : String) (pl : Plan α) :
    (∀ p ∈ (convertPlanNode n c).paths, (∀ g ∈ p, g.InitPlan = false) →
      ∀ g ∈ p, g.Color = c) ∧
    (∀ e, (buildFlame pl).Children[1]? = some e →
      ∀ p ∈ e.paths, (∀ g ∈ p, g.InitPlan = false) → ∀ g ∈ p, g.Color = "") := by
  refine ⟨convertPlanNode_plain_path_color n c, ?_⟩
  intro e he
  have : e = convertPlanNode pl.ExecutionTree "" := by
    simp [buildFlame, Flame.Children] at he
    exact he.symm
  rw [this]
  exact convertPlanNode_plain_path_color pl.ExecutionTree ""

/-- C4 at `samplePlanNode`: the path from the root `Sort` to the ordinary child `Seq Scan`
holds no init-plan node, and both keep the inherited color, `"red"` under `convertPlanNode`
and the empty color under `buildFlame`. -/
theorem convertPlanNode_color_unchanged_witness :
    [convertPlanNode samplePlanNode "red", convertPlanNode sampleScan "red"] ∈
      (convertPlanNode samplePlanNode "red").paths ∧
    (∀ g ∈ [convertPlanNode samplePlanNode "red", convertPlanNode sampleScan "red"],
      g.InitPlan = false) ∧
    (convertPlanNode sampleScan "red").Color = "red" ∧
    (buildFlame samplePlan).Children[1]? = some (convertPlanNode samplePlanNode "") ∧
    [convertPlanNode samplePlanNode "", convertPlanNode sampleScan ""] ∈
      (convertPlanNode samplePlanNode "").paths ∧
    (convertPlanNode sampleScan "").Color = "" :=
  have hpath : ∀ c : String, [convertPlanNode samplePlanNode c, convertPlanNode sampleScan c] ∈
      (convertPlanNode samplePlanNode c).paths := fun c =>
    Flame.mem_paths.2 (Or.inr ⟨convertPlanNode sampleScan c, List.mem_cons_self _ _,
      [convertPlanNode sampleScan c], Flame.mem_paths.2 (Or.inl rfl), rfl⟩)
  have hplain : ∀ c : String,
      ∀ g ∈ [convertPlanNode samplePlanNode c, convertPlanNode sampleScan c],
        g.InitPlan = false := fun c g hg => by
    rcases List.mem_cons.1 hg with rfl | hg
    · rfl
    · rw [List.mem_singleton.1 hg]; rfl
  ⟨hpath "red", hplain "red",
    (convertPlanNode_color_unchanged samplePlanNode "red" samplePlan).1 _ (hpath "red")
      (hplain "red") _ (List.mem_cons_of_mem _ (List.mem_singleton.2 rfl)),
    rfl, hpath "",
    (convertPlanNode_color_unchanged samplePlanNode "red" samplePlan).2 _ rfl _ (hpath "")
      (hplain "") _ (List.mem_cons_of_mem _ (List.mem_singleton.2 rfl))⟩

/-! ## Shape of the converted tree -/

theorem Node.plan_nodes_eq (n : Node α) : n.nodes = n :: Node.nodesList n.Children := by
  cases n; simp [Node.nodes, Node.Children]

/-- A field of the output that is a function of the corresponding input node reads the same
along both traversals. -/
theorem convertPlanNode_nodes_map [Add α] {β : Type} (F : Flame α → β) (G : Node α → β)
    (hFG : ∀ m c, F (convertPlanNode m c) = G m) (n : Node α) :
    ∀ c, (convertPlanNode n c).nodes.map F = n.nodes.map G := by
  induction n using Node.plan_induct with
  | h a cs ih =>
    intro c
    rw [Flame.nodes_eq, Node.plan_nodes_eq, convertPlanNode_Children, List.map_cons, List.map_cons,
      hFG]
    congr 1
    generalize resolvedColor (Node.mk a cs) c = c'
    change (Flame.nodesList (cs.map fun ch => convertPlanNode ch c')).map F =
      (Node.nodesList cs).map G
    clear hFG
    induction cs with
    | nil => rfl
    | cons d ds ihd =>
      simp only [List.map_cons, Flame.nodesList, Node.nodesList, List.map_append]
      rw [ih d (List.mem_cons_self _ _) c',
        ihd (fun ch hch => ih ch (List.mem_cons_of_mem _ hch))]

/-- C5. `convertPlanNode n c` has the shape of `n`: it has as many children as `n`, its
`i`-th child is the conversion of the `i`-th child of `n` (under the color resolved at `n`),
its `Time` is `n.TotalTime`, and, every depth included, the output lists one flame node per
plan node, whose `Time` is the `TotalTime` of the plan node at the same place. -/
theorem convertPlanNode_shape [Add α] (n : Node α) (c : String) :
    (convertPlanNode n c).Children.length = n.Children.length ∧
    (convertPlanNode n c).Children =
      n.Children.map (fun ch => convertPlanNode ch (resolvedColor n c)) ∧
    (∀ i : Nat, (convertPlanNode n c).Children[i]? =
      (n.Children[i]?).map (fun ch => convertPlanNode ch (resolvedColor n c))) ∧
    (convertPlanNode n c).Time = n.TotalTime ∧
    (convertPlanNode n c).nodes.length = n.nodes.length ∧
    (convertPlanNode n c).nodes.map Flame.Time = n.nodes.map Node.TotalTime := by
  have hmap := convertPlanNode_nodes_map Flame.Time Node.TotalTime convertPlanNode_Time n c
  refine ⟨?_, convertPlanNode_Children n c, ?_, convertPlanNode_Time n c, ?_, hmap⟩
  · rw [convertPlanNode_Children, List.length_map]
  · intro i
    rw [convertPlanNode_Children, List.getElem?_map]
  · have := congrArg List.length hmap
    simpa using this

/-- C6. `(convertPlanNode n c).InitPlan` is true exactly when `n.ParentRelationship` is the
string `"InitPlan"`, whatever `c`, and the flags of all output nodes are those computed from
the `ParentRelationship` of the plan nodes at the same places. -/
theorem convertPlanNode_initPlan_iff [Add α] (n : Node α) (c : String) :
    ((convertPlanNode n c).InitPlan = true ↔ n.ParentRelationship = "InitPlan") ∧
    (convertPlanNode n c).nodes.map Flame.InitPlan =
      n.nodes.map (fun m => decide (m.ParentRelationship = "InitPlan")) := by
  refine ⟨?_, convertPlanNode_nodes_map Flame.InitPlan _ convertPlanNode_InitPlan n c⟩
  rw [convertPlanNode_InitPlan, decide_eq_true_eq]

/-! ## Labels -/

/-- C7. The label `name n` is `Method using Index on Table` when `Table` and `Index` are both
non-empty, `Method on Table` when only `Table` is non-empty, and `Method` when both are
empty; the three examples of the specification follow. -/
theorem name_cases (n : Node α) :
    (n.Table ≠ "" → n.Index ≠ "" →
      name n = n.Method ++ " using " ++ n.Index ++ " on " ++ n.Table) ∧
    (n.Table ≠ "" → n.Index = "" → name n = n.Method ++ " on " ++ n.Table) ∧
    (n.Table = "" → n.Index = "" → name n = n.Method) ∧
    (n.Method = "Seq Scan" → n.Table = "t" → n.Index = "" → name n = "Seq Scan on t") ∧
    (n.Method = "Index Scan" → n.Table = "t" → n.Index = "idx" →
      name n = "Index Scan using idx on t") ∧
    (n.Method = "Sort" → n.Table = "" → n.Index = "" → name n = "Sort") := by
  refine ⟨?_, ?_, ?_, ?_, ?_, ?_⟩
  · intro ht hi; simp [name, ht, hi]
  · intro ht hi; simp [name, ht, hi]
  · intro ht hi; simp [name, ht, hi]
  · intro hm ht hi; simp [name, hm, ht, hi]
  · intro hm ht hi; simp [name, hm, ht, hi]
  · intro hm ht hi; simp [name, hm, ht, hi]

/-- C7 on three concrete nodes: a sequential scan of `t`, an index scan of `t` through
`idx`, and a sort. -/
theorem name_cases_witness :
    name (Node.mk { Method := "Seq Scan", Table := "t", TotalTime := (0 : Int) } []) =
      "Seq Scan on t" ∧
    name (Node.mk { Method := "Index Scan", Table := "t", Index := "idx",
                    TotalTime := (0 : Int) } []) = "Index Scan using idx on t" ∧
    name (Node.mk { Method := "Sort", TotalTime := (0 : Int) } []) = "Sort" :=
  ⟨(name_cases _).2.2.2.1 rfl rfl rfl, (name_cases _).2.2.2.2.1 rfl rfl rfl,
    (name_cases _).2.2.2.2.2 rfl rfl rfl⟩

/-- C8. When `Table` is empty, `name n` is `n.Method` whatever `n.Index` is. -/
theorem name_of_empty_table (n : Node α) (h : n.Table = "") : name n = n.Method := by
  simp [name, h]

/-- C8 on an index scan that names an index but no table. -/
theorem name_of_empty_table_witness :
    Node.Table (Node.mk { Method := "Index Scan", Index := "idx", TotalTime := (0 : Int) } [])
      = "" ∧
    name (Node.mk { Method := "Index Scan", Index := "idx", TotalTime := (0 : Int) } []) =
      "Index Scan" :=
  ⟨rfl, name_of_empty_table _ rfl⟩

/-! ## The top-level wrapper -/

/-- C9. The root `r = buildFlame p` has exactly two children `a` and `b` with
`r.Value = a.Value + b.Value` and `r.Time = a.Time + b.Time`; moreover
`r.Value = p.PlanningTime + (convertPlanNode p.ExecutionTree "").Value` and
`r.Time = p.PlanningTime + p.ExecutionTree.TotalTime`. -/
theorem buildFlame_root_sums [Add α] (p : Plan α) :
    (∃ a b, (buildFlame p).Children = [a, b] ∧
      (buildFlame p).Children[0]? = some a ∧ (buildFlame p).Children[1]? = some b ∧
      (buildFlame p).Value = a.Value + b.Value ∧
      (buildFlame p).Time = a.Time + b.Time) ∧
    (buildFlame p).Value = p.PlanningTime + (convertPlanNode p.ExecutionTree "").Value ∧
    (buildFlame p).Time = p.PlanningTime + p.ExecutionTree.TotalTime := by
  refine ⟨⟨_, _, rfl, rfl, rfl, rfl, rfl⟩, rfl, ?_⟩
  rw [← convertPlanNode_Time p.ExecutionTree ""]
  rfl

/-- C10. `buildFlame p` is a node named `Total`, with the empty color and `InitPlan` false,
whose children are, in this order, the planning leaf (`Query Planning`, value and time
`p.PlanningTime`, the fixed detail, the color `#00C05A`, not an init-plan node, no child) and
`convertPlanNode p.ExecutionTree ""`. -/
theorem buildFlame_structure [Add α] (p : Plan α) :
    (buildFlame p).Name = "Total" ∧
    (buildFlame p).Color = "" ∧
    (buildFlame p).InitPlan = false ∧
    (buildFlame p).Children =
      [Flame.mk "Query Planning" p.PlanningTime p.PlanningTime
          "<span>Time to generate the query plan</span>" "#00C05A" false [],
        convertPlanNode p.ExecutionTree ""] := by
  refine ⟨rfl, rfl, rfl, ?_⟩
  have hd : detailTemplate "Time to generate the query plan" =
      "<span>Time to generate the query plan</span>" := by decide
  simp [buildFlame, Flame.Children, hd, colorPlan]

/-! ## The root aggregation example -/

/-- C11. For a plan with `PlanningTime = 2.5` whose execution root has `TotalTime = 10.0` and
a single child, a leaf with `ParentRelationship = "InitPlan"` and `TotalTime = 1.5`, the
second child of `buildFlame p` (the execution flame) has `Value = 11.5` and `Time = 10.0`,
and the root has `Value = 14.0` and `Time = 12.5`. This holds for any attributes of the
execution root, in particular when it is not an init-plan node. All six numbers are dyadic,
so the sums are the same for doubles and for rationals. -/
theorem buildFlame_root_aggregation (p : Plan ℚ) (a b : NodeAttrs ℚ)
    (hp : p.PlanningTime = 2.5) (ht : p.ExecutionTree = Node.mk a [Node.mk b []])
    (hat : a.TotalTime = 10.0)
    (hb : b.ParentRelationship = "InitPlan") (hbt : b.TotalTime = 1.5) :
    ∃ e : Flame ℚ, (buildFlame p).Children[1]? = some e ∧ e.Value = 11.5 ∧ e.Time = 10.0 ∧
      (buildFlame p).Value = 14.0 ∧ (buildFlame p).Time = 12.5 := by
  refine ⟨convertPlanNode p.ExecutionTree "", rfl, ?_⟩
  have hv : (convertPlanNode p.ExecutionTree "").Value = 11.5 := by
    rw [ht]
    simp [convertPlanNode, convertChildren, Flame.Value, Flame.InitPlan, hb, hat, hbt]
    norm_num
  have htm : (convertPlanNode p.ExecutionTree "").Time = 10.0 := by
    rw [convertPlanNode_Time, ht]; exact hat
  refine ⟨hv, htm, ?_, ?_⟩
  · show p.PlanningTime + (convertPlanNode p.ExecutionTree "").Value = 14.0
    rw [hv, hp]; norm_num
  · show p.PlanningTime + (convertPlanNode p.ExecutionTree "").Time = 12.5
    rw [htm, hp]; norm_num

/-- C11 on `aggregationPlan`. -/
theorem buildFlame_root_aggregation_witness :
    ∃ e : Flame ℚ, (buildFlame aggregationPlan).Children[1]? = some e ∧ e.Value = 11.5 ∧
      e.Time = 10.0 ∧ (buildFlame aggregationPlan).Value = 14.0 ∧
      (buildFlame aggregationPlan).Time = 12.5 :=
  buildFlame_root_aggregation aggregationPlan { TotalTime := 10.0 }
    { TotalTime := 1.5, ParentRelationship := "InitPlan" } rfl rfl rfl rfl rfl

/-! ## The detail block -/

theorem foldl_append_eq_append_join (l : List String) (acc : String) :
    l.foldl (fun r s => r ++ s) acc = acc ++ String.join l := by
  induction l generalizing acc with
  | nil => simp [String.join]
  | cons x xs ih =>
    rw [List.foldl_cons, ih (acc ++ x)]
    show acc ++ x ++ String.join xs = acc ++ List.foldl (fun r s => r ++ s) "" (x :: xs)
    rw [List.foldl_cons, ih ("" ++ x), String.empty_append, String.append_assoc]

theorem join_cons (x : String) (l : List String) : String.join (x :: l) = x ++ String.join l := by
  rw [String.join, List.foldl_cons, foldl_append_eq_append_join, String.empty_append]

theorem join_nil : String.join [] = "" := rfl

/-- The builder after the presence checks of `rows`, started from `b`, is `b` followed by the
rows kept. -/
theorem foldl_rows_eq (rows : List (DetailRow α)) (n : Node α) (b : String) :
    rows.foldl (fun b r => if r.present n = true then b ++ rowTemplate r.label (r.render n) else b)
        b =
      b ++ String.join ((emittedRows rows n).map (fun r => rowTemplate r.label (r.render n))) := by
  induction rows generalizing b with
  | nil => simp [emittedRows, join_nil]
  | cons r rs ih =>
    rw [List.foldl_cons, ih]
    by_cases h : r.present n = true
    · simp [emittedRows, List.filter, h, join_cons, String.append_assoc]
    · simp [emittedRows, List.filter, h]

/-- The chain of presence checks of `detail` is the declarative list applied in order. -/
theorem detail_eq_renderRows (n : Node α) : detail n = renderRows canonicalRows n := by
  rw [renderRows, ← foldl_rows_eq]
  simp [detail, canonicalRows]

/-- C12. The detail block `detail n` is the table header, the rows kept from the canonical
list of eleven candidates (Parent Relationship, Filter, Join Filter, Hash Cond, Index Cond,
Recheck Cond, Buffers Shared Hit, Buffers Shared Read, Hash Buckets, Hash Batches, Memory
Usage) taken in that order, a row being kept exactly when its attribute is a non-empty
string or a non-zero number, and the table footer; the labels of the rows emitted form a
subsequence of the canonical labels. -/
theorem detail_refines_canonicalRows (n : Node α) :
    detail n = detailSpec n ∧
    detailSpec n =
      tableHeader ++
        String.join (((canonicalRows.filter (fun r => r.present n))).map
          (fun r => rowTemplate r.label (r.render n))) ++ tableFooter ∧
    (canonicalRows (α := α)).map DetailRow.label =
      ["Parent Relationship", "Filter", "Join Filter", "Hash Cond", "Index Cond",
        "Recheck Cond", "Buffers Shared Hit", "Buffers Shared Read", "Hash Buckets",
        "Hash Batches", "Memory Usage"] ∧
    (canonicalRows (α := α)).map (fun r => r.present n) =
      [decide (n.ParentRelationship ≠ ""), decide (n.Filter ≠ ""), decide (n.JoinFilter ≠ ""),
        decide (n.HashCond ≠ ""), decide (n.IndexCond ≠ ""), decide (n.RecheckCond ≠ ""),
        decide (n.BuffersHit ≠ 0), decide (n.BuffersRead ≠ 0), decide (n.HashBuckets ≠ 0),
        decide (n.HashBatches ≠ 0), decide (n.MemoryUsage ≠ 0)] ∧
    ((emittedRows canonicalRows n).map DetailRow.label).Sublist
      ["Parent Relationship", "Filter", "Join Filter", "Hash Cond", "Index Cond",
        "Recheck Cond", "Buffers Shared Hit", "Buffers Shared Read", "Hash Buckets",
        "Hash Batches", "Memory Usage"] := by
  refine ⟨detail_eq_renderRows n, rfl, rfl, rfl, ?_⟩
  exact (List.filter_sublist canonicalRows).map DetailRow.label

/-- C13. A node whose `Filter` is a non-empty string `s` and whose ten other descriptive
attributes are empty or zero has a detail block with exactly one row, labeled `Filter`: the
header, `<tr><th>Filter</th><td>`, `s` as it is, `</td></tr>`, the footer. -/
theorem detail_filter_only (n : Node α) (s : String) (hs : n.Filter = s) (hne : s ≠ "")
    (h1 : n.ParentRelationship = "") (h2 : n.JoinFilter = "") (h3 : n.HashCond = "")
    (h4 : n.IndexCond = "") (h5 : n.RecheckCond = "") (h6 : n.BuffersHit = 0)
    (h7 : n.BuffersRead = 0) (h8 : n.HashBuckets = 0) (h9 : n.HashBatches = 0)
    (h10 : n.MemoryUsage = 0) :
    detail n = tableHeader ++ "<tr><th>Filter</th><td>" ++ s ++ "</td></tr>" ++ tableFooter ∧
    (emittedRows canonicalRows n).map DetailRow.label = ["Filter"] := by
  have hlit : "<tr><th>" ++ "Filter" ++ "</th><td>" = "<tr><th>Filter</th><td>" := by decide
  constructor
  · simp [detail, hs, hne, h1, h2, h3, h4, h5, h6, h7, h8, h9, h10, rowTemplate, ← hlit,
      String.append_assoc]
  · simp [emittedRows, canonicalRows, List.filter, hs, hne, h1, h2, h3, h4, h5, h6, h7, h8, h9,
      h10]

/-- C13 on `sampleFilterNode`, whose filter is `(a < 3)`. -/
theorem detail_filter_only_witness :
    detail sampleFilterNode =
      "<table class=\"table table-striped table-bordered\"><tbody>" ++
        "<tr><th>Filter</th><td>(a < 3)</td></tr>" ++ "</tbody></table>" ∧
    detail sampleFilterNode =
      tableHeader ++ "<tr><th>Filter</th><td>" ++ "(a < 3)" ++ "</td></tr>" ++ tableFooter :=
  ⟨by decide,
    (detail_filter_only sampleFilterNode "(a < 3)" rfl (by decide) rfl rfl rfl rfl rfl rfl rfl
      rfl rfl rfl).1⟩

theorem join_append (l₁ l₂ : List String) :
    String.join (l₁ ++ l₂) = String.join l₁ ++ String.join l₂ := by
  induction l₁ with
  | nil => simp [join_nil]
  | cons x xs ih => rw [List.cons_append, join_cons, join_cons, ih, String.append_assoc]

/-- A candidate row that is absent on `n` can be dropped from the candidate list. -/
theorem renderRows_filter_absent (rows : List (DetailRow α)) (n : Node α)
    (keep : DetailRow α → Bool) (h : ∀ r ∈ rows, keep r = false → r.present n = false) :
    renderRows rows n = renderRows (rows.filter keep) n := by
  have : emittedRows rows n = emittedRows (rows.filter keep) n := by
    simp only [emittedRows, List.filter_filter]
    apply List.filter_congr
    intro r hr
    cases hk : keep r with
    | false => simp [h r hr hk]
    | true => simp
  rw [renderRows, renderRows, this]

/-- C14. When `MemoryUsage = m` is non-zero, `detail n` ends with the Memory Usage row
followed by the footer, and that row is `<tr><th>Memory Usage</th><td>`, the decimal
rendering of `m`, `kB`, `</td></tr>`; before it come the rows kept among the ten other
candidates, whose values are the attributes as they are, without any unit marker. -/
theorem detail_memory_usage_row (n : Node α) (m : Int) (hm : n.MemoryUsage = m)
    (hne : m ≠ 0) :
    detail n =
      tableHeader ++
        String.join ((emittedRows (rowsWithout "Memory Usage") n).map
          (fun r => rowTemplate r.label (r.render n))) ++
        ("<tr><th>Memory Usage</th><td>" ++ toString m ++ "kB" ++ "</td></tr>") ++
        tableFooter ∧
    (rowsWithout "Memory Usage").map (fun r => (r.label, r.render n)) =
      [("Parent Relationship", n.ParentRelationship), ("Filter", n.Filter),
        ("Join Filter", n.JoinFilter), ("Hash Cond", n.HashCond),
        ("Index Cond", n.IndexCond), ("Recheck Cond", n.RecheckCond),
        ("Buffers Shared Hit", toString n.BuffersHit),
        ("Buffers Shared Read", toString n.BuffersRead),
        ("Hash Buckets", toString n.HashBuckets), ("Hash Batches", toString n.HashBatches)] := by
  have hlit : "<tr><th>" ++ "Memory Usage" ++ "</th><td>" = "<tr><th>Memory Usage</th><td>" := by
    decide
  have hsplit : (canonicalRows (α := α)) =
      rowsWithout "Memory Usage" ++
        [⟨fun n => decide (n.MemoryUsage ≠ 0), "Memory Usage",
          fun n => fmtInt n.MemoryUsage ++ "kB"⟩] := by
    simp [rowsWithout, canonicalRows, List.filter]
  constructor
  · have hrow : String.join ((emittedRows
          [(⟨fun n => decide (n.MemoryUsage ≠ 0), "Memory Usage",
            fun n => fmtInt n.MemoryUsage ++ "kB"⟩ : DetailRow α)] n).map
          (fun r => rowTemplate r.label (r.render n))) =
        "<tr><th>Memory Usage</th><td>" ++ toString m ++ "kB" ++ "</td></tr>" := by
      have hlit2 : ∀ x : String,
          "<tr><th>" ++ ("Memory Usage" ++ ("</th><td>" ++ x)) =
            "<tr><th>Memory Usage</th><td>" ++ x := by
        intro x
        rw [← hlit]
        simp only [String.append_assoc]
      simp [emittedRows, List.filter, hm, hne, join_cons, join_nil, rowTemplate, fmtInt,
        String.append_assoc]
      exact hlit2 _
    have happ : emittedRows canonicalRows n =
        emittedRows (rowsWithout "Memory Usage") n ++
          emittedRows [(⟨fun n => decide (n.MemoryUsage ≠ 0), "Memory Usage",
            fun n => fmtInt n.MemoryUsage ++ "kB"⟩ : DetailRow α)] n := by
      unfold emittedRows
      rw [← List.filter_append, ← hsplit]
    rw [detail_eq_renderRows, renderRows, happ, List.map_append, join_append, hrow]
    simp only [String.append_assoc]
  · simp [rowsWithout, canonicalRows, List.filter, fmtInt]

/-- C14 on `sampleHashNode`, which uses 25 kB of memory. -/
theorem detail_memory_usage_row_witness :
    sampleHashNode.MemoryUsage = 25 ∧
    detail sampleHashNode =
      tableHeader ++ "<tr><th>Hash Cond</th><td>(a = b)</td></tr>" ++
        "<tr><th>Buffers Shared Hit</th><td>12</td></tr>" ++
        "<tr><th>Memory Usage</th><td>25kB</td></tr>" ++ tableFooter ∧
    detail sampleHashNode =
      tableHeader ++
        String.join ((emittedRows (rowsWithout "Memory Usage") sampleHashNode).map
          (fun r => rowTemplate r.label (r.render sampleHashNode))) ++
        ("<tr><th>Memory Usage</th><td>" ++ toString (25 : Int) ++ "kB" ++ "</td></tr>") ++
        tableFooter :=
  ⟨rfl, by rfl, (detail_memory_usage_row sampleHashNode 25 rfl (by decide)).1⟩

/-- C15. A numeric attribute equal to zero gives no row: when one of `BuffersHit`,
`BuffersRead`, `HashBuckets`, `HashBatches`, `MemoryUsage` is 0, `detail n` is the table
built from the canonical candidates without that attribute's row; and a node whose six
string attributes are empty and whose five numeric attributes are 0 gets the header
immediately followed by the footer. -/
theorem detail_zero_is_absent (n : Node α) :
    (n.BuffersHit = 0 → detail n = renderRows (rowsWithout "Buffers Shared Hit") n) ∧
    (n.BuffersRead = 0 → detail n = renderRows (rowsWithout "Buffers Shared Read") n) ∧
    (n.HashBuckets = 0 → detail n = renderRows (rowsWithout "Hash Buckets") n) ∧
    (n.HashBatches = 0 → detail n = renderRows (rowsWithout "Hash Batches") n) ∧
    (n.MemoryUsage = 0 → detail n = renderRows (rowsWithout "Memory Usage") n) ∧
    (n.ParentRelationship = "" → n.Filter = "" → n.JoinFilter = "" → n.HashCond = "" →
      n.IndexCond = "" → n.RecheckCond = "" → n.BuffersHit = 0 → n.BuffersRead = 0 →
      n.HashBuckets = 0 → n.HashBatches = 0 → n.MemoryUsage = 0 →
      detail n = tableHeader ++ tableFooter) := by
  refine ⟨?_, ?_, ?_, ?_, ?_, ?_⟩
  · intro h
    rw [detail_eq_renderRows]
    apply renderRows_filter_absent
    simp [canonicalRows, h]
  · intro h
    rw [detail_eq_renderRows]
    apply renderRows_filter_absent
    simp [canonicalRows, h]
  · intro h
    rw [detail_eq_renderRows]
    apply renderRows_filter_absent
    simp [canonicalRows, h]
  · intro h
    rw [detail_eq_renderRows]
    apply renderRows_filter_absent
    simp [canonicalRows, h]
  · intro h
    rw [detail_eq_renderRows]
    apply renderRows_filter_absent
    simp [canonicalRows, h]
  · intro h1 h2 h3 h4 h5 h6 h7 h8 h9 h10 h11
    simp [detail, h1, h2, h3, h4, h5, h6, h7, h8, h9, h10, h11]

/-- C15 on `sampleFilterNode`, whose five numeric attributes are 0, and on `sampleBareNode`,
which has no descriptive attribute at all. -/
theorem detail_zero_is_absent_witness :
    sampleFilterNode.BuffersHit = 0 ∧
    detail sampleFilterNode = renderRows (rowsWithout "Buffers Shared Hit") sampleFilterNode ∧
    detail sampleBareNode = tableHeader ++ tableFooter ∧
    detail sampleBareNode =
      "<table class=\"table table-striped table-bordered\"><tbody></tbody></table>" :=
  ⟨rfl, (detail_zero_is_absent sampleFilterNode).1 rfl,
    (detail_zero_is_absent sampleBareNode).2.2.2.2.2 rfl rfl rfl rfl rfl rfl rfl rfl rfl rfl rfl,
    by decide⟩

/-! ## Serialization -/

theorem Flame.marshal_eq_some {finite : α → Bool} {nilSlices : Bool} {nm : String} {v t : α}
    {d c : String} {i : Bool} {cs : List (Flame α)} {j : JSON α}
    (h : (Flame.mk nm v t d c i cs).marshal finite nilSlices = some j) :
    finite v = true ∧ finite t = true ∧
      ∃ js, Flame.marshalList finite nilSlices cs = some js ∧
        j = JSON.obj
          [ ("name", JSON.str nm), ("value", JSON.num v), ("time", JSON.num t),
            ("detail", JSON.str d), ("color", JSON.str c), ("init_plan", JSON.bool i),
            ("children", JSON.slice nilSlices js) ] := by
  rw [Flame.marshal] at h
  split at h
  · rename_i hfin
    rw [Bool.and_eq_true] at hfin
    obtain ⟨js, hjs, hj⟩ := Option.map_eq_some'.1 h
    exact ⟨hfin.1, hfin.2, js, hjs, hj.symm⟩
  · exact absurd h (by simp)

theorem Flame.marshalList_eq_some {finite : α → Bool} {nilSlices : Bool} :
    ∀ {fs : List (Flame α)} {js : List (JSON α)},
      Flame.marshalList finite nilSlices fs = some js ↔
        List.Forall₂ (fun f j => f.marshal finite nilSlices = some j) fs js := by
  intro fs
  induction fs with
  | nil =>
    intro js
    constructor
    · intro h
      simp only [Flame.marshalList, Option.some.injEq] at h
      subst h
      exact List.Forall₂.nil
    · intro h
      cases h
      rfl
  | cons f fs ih =>
    intro js
    constructor
    · intro h
      rw [Flame.marshalList] at h
      split at h
      · rename_i j ks hj hks
        simp only [Option.some.injEq] at h
        subst h
        exact List.Forall₂.cons hj (ih.1 hks)
      · exact absurd h (by simp)
    · intro h
      cases h with
      | cons hj hrest =>
        rw [Flame.marshalList, hj, ih.2 hrest]

theorem Flame.marshalList_isSome (finite : α → Bool) (nilSlices : Bool)
    (fs : List (Flame α)) :
    (Flame.marshalList finite nilSlices fs).isSome = true ↔
      ∀ k ∈ fs, (k.marshal finite nilSlices).isSome = true := by
  induction fs with
  | nil => simp [Flame.marshalList]
  | cons k ks ih =>
    rw [Flame.marshalList]
    cases hk : Flame.marshal finite nilSlices k with
    | none =>
      constructor
      · intro h; exact absurd h (by simp)
      · intro h
        have := h k (List.mem_cons_self _ _)
        rw [hk] at this
        exact absurd this (by simp)
    | some j =>
      cases hks : Flame.marshalList finite nilSlices ks with
      | none =>
        constructor
        · intro h; exact absurd h (by simp)
        · intro h
          have := ih.2 (fun x hx => h x (List.mem_cons_of_mem _ hx))
          rw [hks] at this
          exact absurd this (by simp)
      | some js =>
        constructor
        · intro _ x hx
          rcases List.mem_cons.1 hx with rfl | hx
          · rw [hk]; rfl
          · exact ih.1 (by rw [hks]; rfl) x hx
        · intro _; rfl

/-- Marshalling succeeds exactly when every `Value` and `Time` of the tree is finite. -/
theorem Flame.marshal_isSome_iff (finite : α → Bool) (nilSlices : Bool) (f : Flame α) :
    (f.marshal finite nilSlices).isSome = true ↔
      ∀ g ∈ f.nodes, finite g.Value = true ∧ finite g.Time = true := by
  induction f using Flame.flame_induct with
  | h nm v t d c i cs ih =>
    have hroot : ((Flame.mk nm v t d c i cs).marshal finite nilSlices).isSome = true ↔
        (finite v = true ∧ finite t = true) ∧
          ∀ k ∈ cs, (k.marshal finite nilSlices).isSome = true := by
      rw [← Flame.marshalList_isSome, Flame.marshal]
      by_cases hfin : (finite v && finite t) = true
      · rw [if_pos hfin, Option.isSome_map']
        rw [Bool.and_eq_true] at hfin
        simp [hfin]
      · rw [if_neg hfin]
        rw [Bool.and_eq_true] at hfin
        simp [hfin]
    rw [hroot]
    constructor
    · rintro ⟨hfin, hcs⟩ g hg
      rcases Flame.mem_nodes.1 hg with rfl | ⟨k, hk, hgk⟩
      · exact hfin
      · exact (ih k hk).1 (hcs k hk) g hgk
    · intro hall
      refine ⟨hall _ (Flame.self_mem_nodes _), fun k hk => (ih k hk).2 ?_⟩
      intro g hg
      exact hall g (Flame.mem_nodes.2 (Or.inr ⟨k, hk, hg⟩))

/-- The keys of every node of a tree that can be marshalled. -/
theorem Flame.marshal_keys_nodes (finite : α → Bool) (nilSlices : Bool) (f : Flame α) :
    (f.marshal finite nilSlices).isSome = true →
      ∀ g ∈ f.nodes, (g.marshal finite nilSlices).map JSON.keys =
        some ["name", "value", "time", "detail", "color", "init_plan", "children"] := by
  intro hf g hg
  have hall := (Flame.marshal_isSome_iff finite nilSlices f).1 hf
  have hg' : (g.marshal finite nilSlices).isSome = true := by
    rw [Flame.marshal_isSome_iff]
    intro k hk
    have hkf : k ∈ f.nodes := by
      clear hall hf
      induction f using Flame.flame_induct with
      | h nm v t d c i cs ih =>
        rcases Flame.mem_nodes.1 hg with rfl | ⟨ch, hch, hgch⟩
        · exact hk
        · exact Flame.mem_nodes.2 (Or.inr ⟨ch, hch, ih ch hch hgch⟩)
    exact hall k hkf
  obtain ⟨j, hj⟩ := Option.isSome_iff_exists.1 hg'
  rw [hj]
  cases g with
  | mk nm v t d c i cs =>
    obtain ⟨_, _, js, _, rfl⟩ := Flame.marshal_eq_some hj
    rfl

/-- C16 (counterexample). The tree `buildFlame samplePlan` is serialized, and its root
carries the init-plan flag under the key `init_plan`; it has no member named `isInitPlan`,
so its keys are not name, value, time, detail, color, isInitPlan, children. -/
theorem marshal_has_no_isInitPlan_key :
    (flameJSON (fun _ => true) samplePlan).map JSON.keys =
      some ["name", "value", "time", "detail", "color", "init_plan", "children"] ∧
    (flameJSON (fun _ => true) samplePlan).map (fun j => decide ("isInitPlan" ∈ j.keys)) =
      some false ∧
    (flameJSON (fun _ => true) samplePlan).map (JSON.member "isInitPlan") = some none ∧
    (flameJSON (fun _ => true) samplePlan).map (JSON.member "init_plan") =
      some (some (JSON.bool false)) ∧
    (flameJSON (fun _ => true) samplePlan).map JSON.keys ≠
      some ["name", "value", "time", "detail", "color", "isInitPlan", "children"] := by
  refine ⟨rfl, by decide, rfl, rfl, by decide⟩

/-- C16 (amended). Serialization succeeds exactly when every `Value` and `Time` of the tree
is finite, `json.Marshal` returning an error otherwise. When it succeeds, the serialized
form of every `Flame` node is an object whose keys are exactly name, value, time, detail,
color, init_plan, children, in this order: the init-plan flag is the member `init_plan`,
and the member `children` is the array of the serialized children, or, for a node without
child, `null` when its slice is nil, as in the trees of `buildFlame`, and `[]` otherwise. -/
theorem marshal_keys (finite : α → Bool) (nilSlices : Bool) (f : Flame α) :
    ((f.marshal finite nilSlices).isSome = true ↔
      ∀ g ∈ f.nodes, finite g.Value = true ∧ finite g.Time = true) ∧
    (∀ j, f.marshal finite nilSlices = some j →
      j.keys = ["name", "value", "time", "detail", "color", "init_plan", "children"] ∧
      j.member "name" = some (JSON.str f.Name) ∧
      j.member "value" = some (JSON.num f.Value) ∧
      j.member "time" = some (JSON.num f.Time) ∧
      j.member "detail" = some (JSON.str f.Detail) ∧
      j.member "color" = some (JSON.str f.Color) ∧
      j.member "init_plan" = some (JSON.bool f.InitPlan) ∧
      (∃ js, List.Forall₂ (fun g jg => g.marshal finite nilSlices = some jg) f.Children js ∧
        j.member "children" =
          some (if f.Children.isEmpty then (if nilSlices then JSON.null else JSON.arr [])
            else JSON.arr js)) ∧
      (∀ g ∈ f.nodes, (g.marshal finite nilSlices).map JSON.keys =
        some ["name", "value", "time", "detail", "color", "init_plan", "children"])) := by
  refine ⟨Flame.marshal_isSome_iff finite nilSlices f, ?_⟩
  intro j hj
  have hnodes := Flame.marshal_keys_nodes finite nilSlices f (by rw [hj]; rfl)
  cases f with
  | mk nm v t d c i cs =>
    obtain ⟨_, _, js, hjs, rfl⟩ := Flame.marshal_eq_some hj
    have hall := Flame.marshalList_eq_some.1 hjs
    refine ⟨rfl, rfl, rfl, rfl, rfl, rfl, rfl, ⟨js, hall, ?_⟩, hnodes⟩
    cases hall with
    | nil => rfl
    | cons _ _ => rfl

/-- C16 (amended) on the converted `sampleBareNode`, a leaf whose slice of children is nil,
and the error of `json.Marshal` on `buildFlame samplePlan` when the numbers from 16 on are
taken as not finite, the value of its root being 18. -/
theorem marshal_keys_witness :
    (convertPlanNode sampleBareNode "").marshal (fun _ => true) true =
      some (JSON.obj
        [ ("name", JSON.str "Sort"), ("value", JSON.num 3), ("time", JSON.num 3),
          ("detail", JSON.str (detail sampleBareNode)), ("color", JSON.str ""),
          ("init_plan", JSON.bool false), ("children", JSON.null) ]) ∧
    (JSON.obj
        [ ("name", JSON.str "Sort"), ("value", JSON.num (3 : Int)), ("time", JSON.num 3),
          ("detail", JSON.str (detail sampleBareNode)), ("color", JSON.str ""),
          ("init_plan", JSON.bool false), ("children", JSON.null) ]).keys =
      ["name", "value", "time", "detail", "color", "init_plan", "children"] ∧
    flameJSON (fun x : Int => decide (x < 16)) samplePlan = none :=
  ⟨rfl,
    ((marshal_keys (fun _ => true) true (convertPlanNode sampleBareNode "")).2 _ rfl).1,
    rfl⟩

/-! ## Termination -/

theorem Node.depth_le_of_mem {ch : Node α} {cs : List (Node α)} (h : ch ∈ cs) :
    ch.depth ≤ Node.depthList cs := by
  induction cs with
  | nil => exact absurd h (List.not_mem_nil _)
  | cons d ds ih =>
    rw [Node.depthList]
    rcases List.mem_cons.1 h with rfl | h
    · exact Nat.le_max_left _ _
    · exact Nat.le_trans (ih h) (Nat.le_max_right _ _)

/-- When the fuelled calls on the children all succeed, the fuelled loop ends in the state
computed by `convertChildren`. -/
theorem foldlM_convertPlanNodeFuel [Add α] (fuel : Nat) (color : String) (cs : List (Node α))
    (h : ∀ ch ∈ cs, convertPlanNodeFuel fuel ch color = some (convertPlanNode ch color))
    (st : α × List (Flame α)) :
    cs.foldlM
        (fun (st : α × List (Flame α)) childNode =>
          (convertPlanNodeFuel fuel childNode color).map
            (fun f => (if f.InitPlan then st.1 + f.Value else st.1, st.2 ++ [f])))
        st =
      some (convertChildren cs color st.1 st.2) := by
  induction cs generalizing st with
  | nil => simp [convertChildren]
  | cons d ds ih =>
    rw [List.foldlM_cons, h d (List.mem_cons_self _ _)]
    simp only [Option.map_some', Option.bind_eq_bind, Option.some_bind]
    rw [ih (fun ch hch => h ch (List.mem_cons_of_mem _ hch))]
    simp [convertChildren]

theorem convertPlanNodeFuel_eq [Add α] (fuel : Nat) :
    ∀ (n : Node α) (c : String), n.depth ≤ fuel →
      convertPlanNodeFuel fuel n c = some (convertPlanNode n c) := by
  induction fuel with
  | zero =>
    intro n c h
    cases n with
    | mk a cs => simp [Node.depth] at h
  | succ fuel ih =>
    intro n c h
    cases n with
    | mk a cs =>
      have hd : Node.depthList cs ≤ fuel := by
        simpa [Node.depth] using h
      have hch : ∀ ch ∈ cs, ∀ c, convertPlanNodeFuel fuel ch c = some (convertPlanNode ch c) :=
        fun ch hmem c => ih ch c (Nat.le_trans (Node.depth_le_of_mem hmem) hd)
      rw [convertPlanNodeFuel]
      simp only [Node.Children]
      rw [foldlM_convertPlanNodeFuel fuel _ cs (fun ch hmem => hch ch hmem _)]
      simp [convertPlanNode, Node.ParentRelationship, Node.TotalTime, Node.attrs]

/-- C17. The conversion is total: run as a general recursion in which each call spends one
unit of fuel, `convertPlanNode` on a plan tree `n` returns, for every amount of fuel that is
at least the depth of `n`, the flame node `convertPlanNode n c`, and never an error; there
is such an amount of fuel for every finite tree, and with it `buildFlame` returns its root
over that same flame node. `name` and `detail` are not recursive. -/
theorem convertPlanNode_total [Add α] (n : Node α) (c : String) :
    (∀ fuel, n.depth ≤ fuel → convertPlanNodeFuel fuel n c = some (convertPlanNode n c)) ∧
    (∃ fuel f, convertPlanNodeFuel fuel n c = some f ∧ f.Name = name n ∧
      f.Detail = detail n) ∧
    (∀ p : Plan α, p.ExecutionTree = n →
      ∃ fuel e, convertPlanNodeFuel fuel n "" = some e ∧ (buildFlame p).Children[1]? = some e) := by
  refine ⟨fun fuel h => convertPlanNodeFuel_eq fuel n c h, ?_, ?_⟩
  · exact ⟨n.depth, convertPlanNode n c, convertPlanNodeFuel_eq _ n c (Nat.le_refl _),
      convertPlanNode_Name n c, convertPlanNode_Detail n c⟩
  · intro p hp
    refine ⟨n.depth, convertPlanNode n "", convertPlanNodeFuel_eq _ n "" (Nat.le_refl _), ?_⟩
    rw [← hp]
    rfl

/-- C17 on `samplePlanNode`, whose depth is 3: three units of fuel give the converted tree,
and two units are not enough. -/
theorem convertPlanNode_total_witness :
    samplePlanNode.depth ≤ 3 ∧
    convertPlanNodeFuel 3 samplePlanNode "" = some (convertPlanNode samplePlanNode "") ∧
    (convertPlanNodeFuel 2 samplePlanNode "").isNone = true :=
  ⟨by decide, (convertPlanNode_total samplePlanNode "").1 3 (by decide), by rfl⟩

/-! ## Closed form of the aggregated value -/

theorem Node.plan_paths_eq (n : Node α) :
    n.paths = [n] :: (Node.pathsList n.Children).map (fun p => n :: p) := by
  cases n; simp [Node.paths, Node.Children]

theorem Node.mem_plan_pathsList {p : List (Node α)} {ns : List (Node α)} :
    p ∈ Node.pathsList ns ↔ ∃ m ∈ ns, p ∈ m.paths := by
  induction ns with
  | nil => simp [Node.pathsList]
  | cons m ms ih => simp [Node.pathsList, ih]

theorem Node.pathsList_ne_nil {p : List (Node α)} {ns : List (Node α)}
    (h : p ∈ Node.pathsList ns) : p ≠ [] := by
  obtain ⟨m, _, hm⟩ := Node.mem_plan_pathsList.1 h
  rw [Node.plan_paths_eq] at hm
  rcases List.mem_cons.1 hm with rfl | hm
  · simp
  · obtain ⟨q, _, rfl⟩ := List.mem_map.1 hm
    simp

/-- The paths that start at the children of a node end at its proper descendants, one path
per descendant and in the order of the traversal. -/
theorem Node.pathsList_getLast (n : Node α) :
    (Node.pathsList n.Children).map List.getLast? = (Node.nodesList n.Children).map some := by
  induction n using Node.plan_induct with
  | h a cs ih =>
    simp only [Node.Children]
    induction cs with
    | nil => rfl
    | cons d ds ihd =>
      simp only [Node.pathsList, Node.nodesList, List.map_append]
      rw [ihd (fun ch hch => ih ch (List.mem_cons_of_mem _ hch)), Node.plan_paths_eq,
        Node.plan_nodes_eq]
      simp only [List.map_cons, List.getLast?_singleton, List.map_map]
      congr 2
      rw [← ih d (List.mem_cons_self _ _)]
      apply List.map_congr_left
      intro q hq
      have hne := Node.pathsList_ne_nil hq
      cases q with
      | nil => exact absurd rfl hne
      | cons x xs => simp

theorem filter_initPlanChain_map_cons (c : Node α) (ps : List (List (Node α))) :
    (ps.map (fun p => c :: p)).filter initPlanChain =
      if c.ParentRelationship = "InitPlan" then (ps.filter initPlanChain).map (fun p => c :: p)
      else [] := by
  induction ps with
  | nil => simp
  | cons q qs ih =>
    by_cases hc : c.ParentRelationship = "InitPlan"
    · rw [if_pos hc] at ih ⊢
      by_cases hq : initPlanChain q = true
      · have : initPlanChain (c :: q) = true := by
          simpa [initPlanChain, hc] using hq
        simp [List.filter, this, hq, ih]
      · have : ¬ initPlanChain (c :: q) = true := by
          simpa [initPlanChain, hc] using hq
        simp [List.filter, this, hq, ih]
    · rw [if_neg hc] at ih ⊢
      have : ¬ initPlanChain (c :: q) = true := by
        simp [initPlanChain, hc]
      simp [List.filter, this, ih]

theorem filterMap_getLast_map_cons (c : Node α) (ps : List (List (Node α)))
    (hne : ∀ q ∈ ps, q ≠ []) :
    (ps.map (fun p => c :: p)).filterMap List.getLast? = ps.filterMap List.getLast? := by
  induction ps with
  | nil => rfl
  | cons q qs ih =>
    have hq := hne q (List.mem_cons_self _ _)
    have ih2 := ih (fun r hr => hne r (List.mem_cons_of_mem _ hr))
    cases q with
    | nil => exact absurd rfl hq
    | cons x xs =>
      simp only [List.map_cons, List.filterMap_cons, List.getLast?_cons_cons]
      rw [ih2]

theorem chainEnds_append (ps qs : List (List (Node α))) :
    chainEnds (ps ++ qs) = chainEnds ps ++ chainEnds qs := by
  simp [chainEnds]

/-- The init-plan chains that start at a node: none when the node is not an init-plan
node, otherwise the node followed by the chains that start at its children. -/
theorem chainEnds_paths (c : Node α) :
    chainEnds c.paths =
      if c.ParentRelationship = "InitPlan" then c :: chainEnds (Node.pathsList c.Children)
      else [] := by
  rw [Node.plan_paths_eq, chainEnds, List.filter_cons, filter_initPlanChain_map_cons]
  by_cases hc : c.ParentRelationship = "InitPlan"
  · have h1 : initPlanChain [c] = true := by simp [initPlanChain, hc]
    rw [if_pos h1, if_pos hc, if_pos hc, List.filterMap_cons]
    simp only [List.getLast?_singleton]
    rw [filterMap_getLast_map_cons, chainEnds]
    intro q hq
    exact Node.pathsList_ne_nil (List.mem_of_mem_filter hq)
  · have h1 : ¬ initPlanChain [c] = true := by simp [initPlanChain, hc]
    rw [if_neg h1, if_neg hc, if_neg hc]
    rfl

theorem foldl_add_eq_add_sum [AddMonoid α] (l : List α) (t : α) :
    l.foldl (· + ·) t = t + l.sum := by
  induction l generalizing t with
  | nil => simp
  | cons x xs ih => simp [ih, add_assoc]

/-- The values of the init-plan children of a node add up to the times of its init-plan
descendants, once the closed form is known for the children. -/
theorem sum_initPlan_values [AddMonoid α] (c : String) (cs : List (Node α))
    (ih : ∀ ch ∈ cs, ∀ c, (convertPlanNode ch c).Value =
      ch.TotalTime + (ch.initPlanDescendants.map Node.TotalTime).sum) :
    ((((cs.map (fun ch => convertPlanNode ch c)).filter Flame.InitPlan).map Flame.Value)).sum =
      ((chainEnds (Node.pathsList cs)).map Node.TotalTime).sum := by
  induction cs with
  | nil => rfl
  | cons d ds ihd =>
    have hds := ihd (fun ch hch => ih ch (List.mem_cons_of_mem _ hch))
    rw [Node.pathsList, chainEnds_append, chainEnds_paths, List.map_cons, List.filter_cons,
      convertPlanNode_InitPlan]
    by_cases hd : d.ParentRelationship = "InitPlan"
    · rw [if_pos hd, if_pos (decide_eq_true hd), List.map_cons, List.sum_cons, hds,
        ih d (List.mem_cons_self _ _) c, Node.initPlanDescendants, List.cons_append,
        List.map_cons, List.sum_cons, List.map_append, List.sum_append, add_assoc]
    · rw [if_neg hd, if_neg (by simpa using hd), hds, List.nil_append]

theorem convertPlanNode_value_closed [AddMonoid α] (n : Node α) :
    ∀ c, (convertPlanNode n c).Value =
      n.TotalTime + (n.initPlanDescendants.map Node.TotalTime).sum := by
  induction n using Node.plan_induct with
  | h a cs ih =>
    intro c
    rw [convertPlanNode_Value, foldl_add_eq_add_sum, Node.initPlanDescendants]
    simp only [Node.Children]
    rw [sum_initPlan_values _ cs ih]

/-- C18. With times in an additive monoid (exact numbers), `(convertPlanNode n c).Value` is
`n.TotalTime` plus the sum of `d.TotalTime` over the proper descendants `d` of `n` such that
every node on the path from `n` (left out) to `d` (included) has
`ParentRelationship = "InitPlan"`: the sum runs over the ends of those paths, starting at a
child of `n`, that are made of init-plan nodes only, so a descendant reached through a node
that is not an init-plan node is not counted. -/
theorem convertPlanNode_value_closed_form [AddMonoid α] (n : Node α) (c : String) :
    (convertPlanNode n c).Value =
      n.TotalTime +
        ((((Node.pathsList n.Children).filter
            (fun p => p.all (fun m => decide (m.ParentRelationship = "InitPlan")))).filterMap
          List.getLast?).map Node.TotalTime).sum ∧
    (Node.pathsList n.Children).map List.getLast? = (Node.nodesList n.Children).map some :=
  ⟨convertPlanNode_value_closed n c, Node.pathsList_getLast n⟩

/-- The closed form on `sampleHiddenNode`: the init-plan leaf below the ordinary scan is not
counted, the init-plan subtree is, and the value is 10 + (1 + 2). -/
theorem convertPlanNode_value_closed_sample :
    (convertPlanNode sampleHiddenNode "").Value = 13 ∧
    sampleHiddenNode.initPlanDescendants.map Node.TotalTime = [1, 2] ∧
    (sampleHiddenNode.nodes.map Node.TotalTime) = [10, 4, 2, 1, 2] := by
  refine ⟨by decide, by decide, by decide⟩

/-! ## The inherited color only reaches `Color` -/

theorem Flame.withoutColorList_eq (fs : List (Flame α)) :
    Flame.withoutColorList fs = fs.map Flame.withoutColor := by
  induction fs with
  | nil => rfl
  | cons g gs ih => simp [Flame.withoutColorList, ih]

theorem Flame.withoutColor_Value (f : Flame α) : f.withoutColor.Value = f.Value := by
  cases f; rfl

/-- A converted node depends on the inherited color through the resolved color only. -/
theorem convertPlanNode_resolvedColor [Add α] (n : Node α) (c₁ c₂ : String)
    (h : resolvedColor n c₁ = resolvedColor n c₂) :
    convertPlanNode n c₁ = convertPlanNode n c₂ := by
  rw [convertPlanNode_eq n c₁, convertPlanNode_eq n c₂, h]

theorem convertPlanNode_withoutColor [Add α] (n : Node α) :
    ∀ c₁ c₂, (convertPlanNode n c₁).withoutColor = (convertPlanNode n c₂).withoutColor := by
  induction n using Node.plan_induct with
  | h a cs ih =>
    intro c₁ c₂
    rw [convertPlanNode_eq _ c₁, convertPlanNode_eq _ c₂]
    simp only [Flame.withoutColor, Flame.withoutColorList_eq, Node.Children, List.map_map]
    generalize resolvedColor (Node.mk a cs) c₁ = r₁
    generalize resolvedColor (Node.mk a cs) c₂ = r₂
    have hlist : cs.map (Flame.withoutColor ∘ fun ch => convertPlanNode ch r₁) =
        cs.map (Flame.withoutColor ∘ fun ch => convertPlanNode ch r₂) :=
      List.map_congr_left (fun ch hch => ih ch hch r₁ r₂)
    have hval : ((cs.map (fun ch => convertPlanNode ch r₁)).filter Flame.InitPlan).map
          Flame.Value =
        ((cs.map (fun ch => convertPlanNode ch r₂)).filter Flame.InitPlan).map Flame.Value := by
      clear hlist
      induction cs with
      | nil => rfl
      | cons d ds ihd =>
        have hd : (convertPlanNode d r₁).Value = (convertPlanNode d r₂).Value := by
          rw [← Flame.withoutColor_Value, ih d (List.mem_cons_self _ _) r₁ r₂,
            Flame.withoutColor_Value]
        have hds := ihd (fun ch hch => ih ch (List.mem_cons_of_mem _ hch))
        simp only [List.map_cons, List.filter_cons, convertPlanNode_InitPlan]
        split
        · rw [List.map_cons, List.map_cons, hd, hds]
        · exact hds
    rw [hlist, hval]

theorem convertPath_paths [Add α] (n : Node α) :
    ∀ c, (convertPlanNode n c).paths = n.paths.map (convertPath c) := by
  induction n using Node.plan_induct with
  | h a cs ih =>
    intro c
    rw [Flame.paths_eq, Node.plan_paths_eq, convertPlanNode_Children]
    simp only [List.map_cons, List.map_map, Node.Children, convertPath]
    congr 1
    generalize hr : resolvedColor (Node.mk a cs) c = r
    have hlist : Flame.pathsList (cs.map fun ch => convertPlanNode ch r) =
        (Node.pathsList cs).map (convertPath r) := by
      clear hr
      induction cs with
      | nil => rfl
      | cons d ds ihd =>
        simp only [List.map_cons, Flame.pathsList, Node.pathsList, List.map_append]
        rw [ih d (List.mem_cons_self _ _) r,
          ihd (fun ch hch => ih ch (List.mem_cons_of_mem _ hch))]
    rw [hlist, List.map_map]
    apply List.map_congr_left
    intro q _
    simp [convertPath, hr]

theorem convertPath_InitPlan [Add α] (q : List (Node α)) :
    ∀ c, (convertPath c q).map Flame.InitPlan =
      q.map (fun m => decide (m.ParentRelationship = "InitPlan")) := by
  induction q with
  | nil => intro c; rfl
  | cons m rest ih =>
    intro c
    simp only [convertPath, List.map_cons, convertPlanNode_InitPlan, ih]

/-- Along one path of the plan tree converted under two colors, the last colors differ only
when no node of the path is an init-plan node. -/
theorem convertPath_color_differs [Add α] (q : List (Node α)) :
    ∀ c₁ c₂, (convertPath c₁ q).getLast?.map Flame.Color ≠
        (convertPath c₂ q).getLast?.map Flame.Color →
      ∀ g ∈ convertPath c₁ q, g.InitPlan = false := by
  induction q with
  | nil => intro c₁ c₂ h; exact absurd rfl h
  | cons m rest ih =>
    intro c₁ c₂ h
    by_cases hm : m.ParentRelationship = "InitPlan"
    · exfalso
      apply h
      have hr : resolvedColor m c₁ = resolvedColor m c₂ := by
        rw [resolvedColor_of_initPlan m c₁ hm, resolvedColor_of_initPlan m c₂ hm]
      simp only [convertPath]
      rw [convertPlanNode_resolvedColor m c₁ c₂ hr, hr]
    · have h1 := resolvedColor_of_not_initPlan m c₁ hm
      have h2 := resolvedColor_of_not_initPlan m c₂ hm
      have hhead : (convertPlanNode m c₁).InitPlan = false := by
        rw [convertPlanNode_InitPlan]; exact decide_eq_false hm
      cases rest with
      | nil =>
        intro g hg
        simp only [convertPath, List.mem_singleton] at hg
        rw [hg]; exact hhead
      | cons r rs =>
        simp only [convertPath, h1, h2, List.getLast?_cons_cons] at h ⊢
        have hrest := ih c₁ c₂ (by simpa only [convertPath] using h)
        intro g hg
        rcases List.mem_cons.1 hg with rfl | hg
        · exact hhead
        · exact hrest g (by simpa only [convertPath] using hg)

/-- C19. The trees `convertPlanNode n c₁` and `convertPlanNode n c₂` are equal once their
colors are removed: they have the same shape and the same `Name`, `Value`, `Time`, `Detail`
and `InitPlan` at every node. Their root paths correspond one to one, with the same
init-plan flags, and the nodes at the ends of two corresponding paths have different colors
only when no node of the path, the end and its ancestors, is an init-plan node. -/
theorem convertPlanNode_color_noninterference [Add α] (n : Node α) (c₁ c₂ : String) :
    (convertPlanNode n c₁).withoutColor = (convertPlanNode n c₂).withoutColor ∧
    List.Forall₂
      (fun p₁ p₂ : List (Flame α) =>
        p₁.map Flame.InitPlan = p₂.map Flame.InitPlan ∧
        (p₁.getLast?.map Flame.Color ≠ p₂.getLast?.map Flame.Color →
          ∀ g ∈ p₁, g.InitPlan = false))
      (convertPlanNode n c₁).paths (convertPlanNode n c₂).paths := by
  refine ⟨convertPlanNode_withoutColor n c₁ c₂, ?_⟩
  rw [convertPath_paths, convertPath_paths, List.forall₂_map_left_iff,
    List.forall₂_map_right_iff, List.forall₂_same]
  intro q _
  exact ⟨by rw [convertPath_InitPlan, convertPath_InitPlan], convertPath_color_differs q c₁ c₂⟩

/-- The two conversions of `samplePlanNode` under `"red"` and `"blue"`: the colors along the
traversal differ at the root and at the ordinary child, and both trees are grey on the
init-plan subtree. -/
theorem convertPlanNode_color_noninterference_sample :
    (convertPlanNode samplePlanNode "red").nodes.map Flame.Color =
      ["red", "red", "#C0C0C0", "#C0C0C0"] ∧
    (convertPlanNode samplePlanNode "blue").nodes.map Flame.Color =
      ["blue", "blue", "#C0C0C0", "#C0C0C0"] ∧
    (convertPlanNode samplePlanNode "red").nodes.map Flame.InitPlan =
      [false, false, true, true] := by
  refine ⟨by decide, by decide, by decide⟩

/-! ## Bounds on the aggregated value -/

theorem Node.mem_plan_nodesList {m : Node α} {ns : List (Node α)} :
    m ∈ Node.nodesList ns ↔ ∃ k ∈ ns, m ∈ k.nodes := by
  induction ns with
  | nil => simp [Node.nodesList]
  | cons k ks ih => simp [Node.nodesList, ih]

theorem Node.mem_nodes_of_child {m ch : Node α} {n : Node α} (hch : ch ∈ n.Children)
    (hm : m ∈ ch.nodes) : m ∈ n.nodes := by
  rw [Node.plan_nodes_eq]
  exact List.mem_cons_of_mem _ (Node.mem_plan_nodesList.2 ⟨ch, hch, hm⟩)

theorem Node.self_mem_plan_nodes (n : Node α) : n ∈ n.nodes := by
  rw [Node.plan_nodes_eq]; exact List.mem_cons_self _ _

theorem convertPlanNode_bounds [OrderedAddCommMonoid α] (n : Node α) :
    (∀ m ∈ n.nodes, 0 ≤ m.TotalTime) →
      ∀ c, ∀ f ∈ (convertPlanNode n c).nodes, 0 ≤ f.Time ∧ f.Time ≤ f.Value := by
  induction n using Node.plan_induct with
  | h a cs ih =>
    intro hn c f hf
    have hchild : ∀ ch ∈ cs, ∀ m ∈ ch.nodes, 0 ≤ m.TotalTime :=
      fun ch hch m hm => hn m (Node.mem_nodes_of_child hch hm)
    rcases Flame.mem_nodes.1 hf with rfl | ⟨g, hg, hfg⟩
    · have h0 : 0 ≤ (Node.mk a cs).TotalTime := hn _ (Node.self_mem_plan_nodes _)
      rw [convertPlanNode_Time, convertPlanNode_Value, foldl_add_eq_add_sum]
      refine ⟨h0, le_add_of_nonneg_right (List.sum_nonneg ?_)⟩
      intro x hx
      obtain ⟨k, hk, rfl⟩ := List.mem_map.1 hx
      obtain ⟨ch, hch, rfl⟩ := List.mem_map.1 (List.mem_of_mem_filter hk)
      have := ih ch hch (hchild ch hch) (resolvedColor (Node.mk a cs) c) _
        (Flame.self_mem_nodes _)
      exact le_trans this.1 this.2
    · rw [convertPlanNode_Children] at hg
      obtain ⟨ch, hch, rfl⟩ := List.mem_map.1 hg
      exact ih ch hch (hchild ch hch) _ f hfg

/-- C20. With times in an ordered additive monoid (exact numbers): when every node of the
plan tree `n` has `TotalTime ≥ 0`, every node `f` of `convertPlanNode n c` has
`f.Value ≥ f.Time ≥ 0`, and `f.Value = f.Time` when no child of `f` is an init-plan node;
when moreover `PlanningTime ≥ 0`, the root of `buildFlame` built on `n` has
`Value ≥ Time ≥ 0`. -/
theorem convertPlanNode_value_ge_time [OrderedAddCommMonoid α] (n : Node α) (c : String)
    (hn : ∀ m ∈ n.nodes, 0 ≤ m.TotalTime) :
    (∀ f ∈ (convertPlanNode n c).nodes,
      0 ≤ f.Time ∧ f.Time ≤ f.Value ∧
        ((∀ g ∈ f.Children, g.InitPlan = false) → f.Value = f.Time)) ∧
    (∀ p : Plan α, p.ExecutionTree = n → 0 ≤ p.PlanningTime →
      0 ≤ (buildFlame p).Time ∧ (buildFlame p).Time ≤ (buildFlame p).Value) := by
  constructor
  · intro f hf
    obtain ⟨h0, h1⟩ := convertPlanNode_bounds n hn c f hf
    refine ⟨h0, h1, ?_⟩
    intro hnone
    obtain ⟨m, _, c', rfl⟩ := mem_nodes_convertPlanNode n c f hf
    have hfil : (convertPlanNode m c').Children.filter Flame.InitPlan = [] := by
      rw [List.filter_eq_nil_iff]
      intro g hg
      rw [hnone g hg]
      simp
    rw [convertPlanNode_Value, ← convertPlanNode_Children, hfil, convertPlanNode_Time]
    rfl
  · intro p hp hpt
    obtain ⟨h0, h1⟩ := convertPlanNode_bounds n hn "" _ (Flame.self_mem_nodes _)
    rw [← hp] at h0 h1
    exact ⟨add_nonneg hpt h0, add_le_add_left h1 _⟩

/-- C20 on `samplePlanNode` and `samplePlan`, whose times are 10, 4, 1, 2 and 5: the
converted root has time 10 and value 13, the root of `buildFlame` time 15 and value 18. -/
theorem convertPlanNode_value_ge_time_witness :
    (∀ m ∈ samplePlanNode.nodes, 0 ≤ m.TotalTime) ∧
    (0 : Int) ≤ (convertPlanNode samplePlanNode "").Time ∧
    (convertPlanNode samplePlanNode "").Time ≤ (convertPlanNode samplePlanNode "").Value ∧
    (0 : Int) ≤ (buildFlame samplePlan).Time ∧
    (buildFlame samplePlan).Time ≤ (buildFlame samplePlan).Value :=
  have hn : ∀ m ∈ samplePlanNode.nodes, 0 ≤ m.TotalTime := by decide
  ⟨hn,
    ((convertPlanNode_value_ge_time samplePlanNode "" hn).1 _ (Flame.self_mem_nodes _)).1,
    ((convertPlanNode_value_ge_time samplePlanNode "" hn).1 _ (Flame.self_mem_nodes _)).2.1,
    ((convertPlanNode_value_ge_time samplePlanNode "" hn).2 samplePlan rfl (by decide)).1,
    ((convertPlanNode_value_ge_time samplePlanNode "" hn).2 samplePlan rfl (by decide)).2⟩

end PgFlame
